import Mathlib

/-!
# gosquashimports: verification of `main.go`

A shallow embedding of `src/main.go`.  The program walks the paths given on the
command line, parses every Go file with `go/parser`, removes the blank lines
between the first and the last import entry by calling `token.File.MergeLine`
on the position table of the parsed file, and rewrites a changed file through
a temporary file.

Conventions of the embedding:

* positions (`token.Pos`) are byte offsets into the file, that is `Pos` minus
  the base of the file; line numbers are 1-based as in Go;
* the text of a file is the list of code points of its UTF-8 bytes;
* the functions of the Go standard library that the program calls (`go/token`,
  `go/scanner`, `strings`, `path/filepath`, `os`) are embedded after their
  implementation in the standard library; `File.Line` is the line number that
  `token.File.Line` returns, adjusted by the `//line` directives of the file;
* `squashImports` is embedded on the outcome of reading and parsing the file;
  `rewriteFile` on an explicit file system, the outcome of every system call
  being chosen by the environment; `processPath` and `run` take the effect of
  the function they call on the outside world as an argument, so that what is
  proved of them holds for every behaviour of that function;
* `ScanState.trace` and `RewriteResult.ops` list what a function did; they do
  not influence what it computes;
* a panic is the result `none` (or `Result.panic`).
-/

namespace GoSquashImports

/-! ## The position table of `go/token` -/

/-- Entry of `f.infos` (type `lineInfo` of `go/token`), added by
`File.AddLineColumnInfo` when the scanner meets a `//line` directive: the line
that holds byte `Offset` counts as line `Line`, and the lines after it follow
on.  The file name and the column of the directive do not enter a line number. -/
structure LineInfo where
  Offset : Nat
  Line : Nat
deriving DecidableEq, Repr

/-- Position table of one file, the part of `token.File` that `main.go` uses:
`size` is the file size in bytes, `lines` holds the byte offset of the first
character of every line (`lines[0] = 0`) and `infos` the `//line` directives. -/
structure File where
  size : Nat
  lines : List Nat
  infos : List LineInfo
deriving DecidableEq, Repr

/-- Loop of `searchInts` in `go/token`:
`for i < j { h := (i+j)/2; if a[h] <= x { i = h + 1 } else { j = h } }`.
The first argument bounds the number of iterations. -/
def searchIntsLoop (a : List Nat) (x : Nat) : Nat → Nat → Nat → Nat
  | 0, i, _ => i
  | fuel + 1, i, j =>
    if i < j then
      let h := (i + j) / 2
      if a.getD h 0 ≤ x then searchIntsLoop a x fuel (h + 1) j
      else searchIntsLoop a x fuel i h
    else i

/-- Function `searchInts(a, x)` of `go/token`: the index of the largest entry
that is `<= x` in a sorted slice, or `-1`. -/
def searchInts (a : List Nat) (x : Nat) : Int :=
  (searchIntsLoop a x a.length 0 a.length : Int) - 1

/-- Function `searchLineInfos(a, x)` of `go/token`:
`sort.Search(len(a), func(i int) bool { return a[i].Offset > x }) - 1`, the
index of the last entry whose offset is `<= x`, or `-1`.  `sort.Search` runs
the halving loop of `searchInts`. -/
def searchLineInfos (a : List LineInfo) (x : Nat) : Int :=
  (searchIntsLoop (a.map (fun info => info.Offset)) x a.length 0 a.length : Int) - 1

/-- Line number computed by `File.unpack(offset, adjusted)` of `go/token`:
`i + 1` for `i := searchInts(f.lines, offset)` when `i >= 0`, else 0; when
`adjusted` is set and the last directive at or before `offset` is `alt`, recorded
on line `i2 + 1` of the table as it is now, the result is
`alt.Line + (line - (i2 + 1))`. -/
def File.unpack (f : File) (offset : Nat) (adjusted : Bool) : Int :=
  let i := searchInts f.lines offset
  let line : Int := if 0 ≤ i then i + 1 else 0
  if adjusted && decide (f.infos.length > 0) then
    let j := searchLineInfos f.infos offset
    if 0 ≤ j then
      match f.infos[j.toNat]? with
      | some alt =>
        let i2 := searchInts f.lines alt.Offset
        if 0 ≤ i2 then (alt.Line : Int) + (line - (i2 + 1)) else line
      | none => line
    else line
  else line

/-- Line of `File.PositionFor(p, adjusted)` of `go/token`.  The line number is
a Go `int`; it is not negative when the table is in increasing order. -/
def File.PositionFor (f : File) (p : Nat) (adjusted : Bool) : Nat :=
  (f.unpack p adjusted).toNat

/-- Method `File.Line` of `go/token`: `f.Position(p).Line`, where `Position(p)`
is `PositionFor(p, true)`, the position adjusted by the `//line` directives. -/
def File.Line (f : File) (p : Nat) : Nat :=
  f.PositionFor p true

/-- Method `File.MergeLine` of `go/token`.  It panics (`none`) when `line < 1`
or `line >= len(f.lines)`; otherwise it removes the entry with index `line`
(the start of line `line + 1`), which joins line `line` of the table with the
next one.  `line` counts the entries of the table; `f.infos` is left as it is. -/
def File.MergeLine (f : File) (line : Nat) : Option File :=
  if line < 1 then none
  else if line ≥ f.lines.length then none
  else some { f with lines := f.lines.eraseIdx line }


/-! ## Text helpers of package `strings` -/

/-- Predicate `unicode.IsSpace`: the Latin-1 spaces and the code points with the
Unicode property White_Space. -/
def isSpace (c : Char) : Bool :=
  let n := c.toNat
  n = 0x09 || n = 0x0A || n = 0x0B || n = 0x0C || n = 0x0D || n = 0x20 ||
  n = 0x85 || n = 0xA0 || n = 0x1680 || (0x2000 ≤ n && n ≤ 0x200A) ||
  n = 0x2028 || n = 0x2029 || n = 0x202F || n = 0x205F || n = 0x3000

/-- Function `strings.TrimSpace`: the string without its leading and trailing
white space. -/
def TrimSpace (s : List Char) : List Char :=
  ((s.dropWhile isSpace).reverse.dropWhile isSpace).reverse

/-- Function `strings.Split(s, "\n")`: the pieces of `s` between line feeds;
the result always has one element more than `s` has line feeds. -/
def Split : List Char → List (List Char)
  | [] => [[]]
  | c :: cs =>
    if c = '\n' then [] :: Split cs
    else
      match Split cs with
      | [] => [[c]]
      | l :: ls => (c :: l) :: ls


/-! ## The parsed file and `squashImports` -/

/-- A comment group of `astFile.Comments`, reduced to `Pos()` and `End()`. -/
structure Comment where
  pos : Nat
  endPos : Nat
deriving DecidableEq, Repr

/-- What `squashImports` has in hand after `ioutil.ReadFile` and
`parser.ParseFile` succeeded: the bytes of the file (as the code points of
valid UTF-8 text), the position table, the positions of `astFile.Imports` and
the comment groups of `astFile.Comments`. -/
structure ParsedFile where
  data : List Char
  tokenFile : File
  imports : List Nat
  comments : List Comment
deriving DecidableEq, Repr

/-- Condition under which the comment loop of `squashImports` returns (lines 86-88). -/
def disqualifying (tokenFile : File) (importsStartLine importsEndLine : Nat)
    (comment : Comment) : Bool :=
  let startLine := tokenFile.Line comment.pos
  let endLine := tokenFile.Line comment.endPos
  decide ((endLine : Int) = (importsStartLine : Int) - 1) ||
    (decide (startLine ≥ importsStartLine) && decide (startLine ≤ importsEndLine)) ||
    decide (startLine = importsEndLine + 1)

/-- One iteration of the scan loop, recorded for reasoning: the line examined,
the table entries when the iteration started and whether `MergeLine` was called. -/
structure Step where
  line : Nat
  table : List Nat
  merged : Bool
deriving DecidableEq, Repr

/-- Variables of the scan loop (`tokenFile`, `changed`) and the record of the
iterations executed so far. -/
structure ScanState where
  tokenFile : File
  changed : Bool
  trace : List Step
deriving DecidableEq, Repr

/-- The loop `for line := importsEndLine - 1; line > importsStartLine; line--`
(lines 96-101), started with the given value of `line`.  `none` is a panic:
an index out of range in `lines[line-1]` or a panicking `MergeLine`. -/
def scanLoop (lines : List (List Char)) (importsStartLine : Nat) :
    Nat → ScanState → Option ScanState
  | 0, st => some st
  | line + 1, st =>
    if line + 1 > importsStartLine then
      match lines[line + 1 - 1]? with
      | none => none
      | some text =>
        if TrimSpace text = [] then
          match st.tokenFile.MergeLine (line + 1) with
          | none => none
          | some f =>
            scanLoop lines importsStartLine line
              { tokenFile := f, changed := true,
                trace := st.trace ++ [⟨line + 1, st.tokenFile.lines, true⟩] }
        else
          scanLoop lines importsStartLine line
            { st with trace := st.trace ++ [⟨line + 1, st.tokenFile.lines, false⟩] }
    else some st

/-- Line of the first import entry (line 78). -/
def importsStartLine (pf : ParsedFile) : Nat :=
  pf.tokenFile.Line (pf.imports.getD 0 0)

/-- Line of the last import entry (line 79). -/
def importsEndLine (pf : ParsedFile) : Nat :=
  pf.tokenFile.Line (pf.imports.getD (pf.imports.length - 1) 0)

/-- The scan of lines 93-101 on a parsed file. -/
def scan (pf : ParsedFile) : Option ScanState :=
  scanLoop (Split pf.data) (importsStartLine pf) (importsEndLine pf - 1)
    { tokenFile := pf.tokenFile, changed := false, trace := [] }

/-- How a call of `squashImports` ends. -/
inductive Result where
  /-- Returned the error of `ReadFile` or `ParseFile` (lines 67, 72). -/
  | failed (err : String)
  /-- Returned nil without calling `rewriteFile` (lines 74, 89, 103). -/
  | untouched
  /-- Reached `return rewriteFile(...)` (line 106) with this mutated table. -/
  | rewrite (st : ScanState)
  /-- A run-time panic. -/
  | panic
deriving DecidableEq, Repr

/-- Function `squashImports` (lines 62-107); the argument is the outcome of
reading and parsing the file. -/
def squashImports (parsed : Except String ParsedFile) : Result :=
  match parsed with
  | .error err => .failed err
  | .ok pf =>
    if pf.imports.length ≤ 1 then .untouched
    else if pf.comments.any (disqualifying pf.tokenFile (importsStartLine pf) (importsEndLine pf))
    then .untouched
    else
      match scan pf with
      | none => .panic
      | some st => if !st.changed then .untouched else .rewrite st


/-! ## The line table built by `go/scanner` -/

/-- Number of bytes of the UTF-8 encoding of a text. -/
def byteLen (s : List Char) : Nat := (s.map Char.utf8Size).sum

/-- Offsets passed to `File.AddLine` by the scanner: the offset that follows
each line feed; `off` is the offset of the first character of `s`. -/
def lineFeeds : List Char → Nat → List Nat
  | [], _ => []
  | c :: cs, off =>
    if c = '\n' then (off + c.utf8Size) :: lineFeeds cs (off + c.utf8Size)
    else lineFeeds cs (off + c.utf8Size)

/-- The table of a file that was scanned to its end: it starts as `[0]`
and `AddLine` keeps an offset only when it is smaller than the file size. -/
def lineTable (data : List Char) : List Nat :=
  0 :: (lineFeeds data 0).filter (fun o => o < byteLen data)


/-! ## `run` -/

/-- Function `run` (lines 24-31).  `processPath` acts on the outside world `σ`
(file system and standard output) and returns its error; `run` returns its own
error and the world it leaves. -/
def run {σ : Type} (processPath : String → σ → Option String × σ) :
    List String → σ → Option String × σ
  | [], w => (none, w)
  | path :: paths, w =>
    match processPath path w with
    | (some err, w') => (some err, w')
    | (none, w') => run processPath paths w'


/-! ## `rewriteFile` over an explicit file system -/

/-- A file: its bytes and its permission bits. -/
structure FileNode where
  contents : String
  perm : Nat
deriving DecidableEq, Repr

/-- The file system: the file, if any, at each path. -/
abbrev FS := String → Option FileNode

/-- File system with the entry at `path` replaced. -/
def FS.set (fs : FS) (path : String) (node : Option FileNode) : FS :=
  fun q => if q = path then node else fs q

/-- The system and library calls made by `rewriteFile`. -/
inductive Op where
  | printf | stat | openFile | formatNode | flush | rename | close | remove
deriving DecidableEq, Repr

/-- Outcome that the environment gives to each call of `rewriteFile`: `none`
is success, `some err` a failure.  `written` is what has reached the temporary
file when `format.Node` or `Flush` fails. -/
structure Env where
  stat : Option String
  openFile : Option String
  formatNode : Option String
  flush : Option String
  rename : Option String
  close : Option String
  remove : Option String
  written : String

/-- State of the world after `rewriteFile`: the returned error, the file
system, and the calls that were made. -/
structure RewriteResult where
  retErr : Option String
  fs : FS
  ops : List Op

/-- The deferred function of `rewriteFile` (lines 122-132): close the file,
then remove the temporary file unless `tempPath` is the empty string.  Each
error is kept only when no error is pending. -/
def deferred (env : Env) (tempPath : String) (retErr : Option String) (fs : FS)
    (ops : List Op) : RewriteResult :=
  let retErr1 := match env.close, retErr with
    | some err, none => some err
    | _, r => r
  if tempPath ≠ "" then
    match env.remove with
    | some err =>
      ⟨(match retErr1 with | none => some err | r => r), fs, ops ++ [Op.close, Op.remove]⟩
    | none => ⟨retErr1, fs.set tempPath none, ops ++ [Op.close, Op.remove]⟩
  else ⟨retErr1, fs, ops ++ [Op.close]⟩

/-- Function `rewriteFile` (lines 109-148).  `formatted` is the text that
`format.Node` produces for the mutated tree.  A call that fails leaves the
file system as it was. -/
def rewriteFile (env : Env) (formatted : String) (path : String) (fs : FS) : RewriteResult :=
  -- line 112: os.Stat(path)
  match env.stat, fs path with
  | some err, _ => ⟨some err, fs, [Op.printf, Op.stat]⟩
  | none, none => ⟨some "no such file or directory", fs, [Op.printf, Op.stat]⟩
  | none, some info =>
    let tempPath := path ++ ".tmp"
    -- line 118: os.OpenFile(tempPath, O_CREATE|O_TRUNC|O_WRONLY, perm)
    match env.openFile with
    | some err => ⟨some err, fs, [Op.printf, Op.stat, Op.openFile]⟩
    | none =>
      let perm := match fs tempPath with
        | some old => old.perm
        | none => info.perm
      let fs1 := fs.set tempPath (some ⟨"", perm⟩)
      let ops1 := [Op.printf, Op.stat, Op.openFile]
      -- line 135: format.Node through the buffered writer
      match env.formatNode with
      | some err =>
        deferred env tempPath (some err) (fs1.set tempPath (some ⟨env.written, perm⟩))
          (ops1 ++ [Op.formatNode])
      | none =>
        -- line 138: writer.Flush()
        match env.flush with
        | some err =>
          deferred env tempPath (some err) (fs1.set tempPath (some ⟨env.written, perm⟩))
            (ops1 ++ [Op.formatNode, Op.flush])
        | none =>
          let fs2 := fs1.set tempPath (some ⟨formatted, perm⟩)
          -- line 142: os.Rename(tempPath, path)
          match env.rename with
          | some err =>
            deferred env tempPath (some err) fs2
              (ops1 ++ [Op.formatNode, Op.flush, Op.rename])
          | none =>
            let fs3 := (fs2.set path (fs2 tempPath)).set tempPath none
            -- line 145: tempPath = ""
            deferred env "" none fs3 (ops1 ++ [Op.formatNode, Op.flush, Op.rename])

/-! ## `processPath` and the directory walk -/

/-- A directory tree as `filepath.WalkDir` sees it.  A `file` is any entry that
is not a directory (a symbolic link is one); `regular` is
`entry.Type().IsRegular()`.  A directory has what `os.ReadDir` returns when the
walk reads it: the error, if any, and the entries, sorted by name. -/
inductive Tree where
  | file (name : String) (regular : Bool)
  | dir (name : String) (readErr : Option String) (entries : List Tree)

/-- Method `Name` of the entry. -/
def Tree.name : Tree → String
  | .file name _ => name
  | .dir name _ _ => name

/-- Method `IsDir` of the entry. -/
def Tree.isDir : Tree → Bool
  | .file _ _ => false
  | .dir _ _ _ => true

/-- Method `Type().IsRegular()` of the entry. -/
def Tree.isRegular : Tree → Bool
  | .file _ regular => regular
  | .dir _ _ _ => false

/-- Loop of `filepath.Ext`: `for i := len(path) - 1; i >= 0 && path[i] != '/'; i--`,
returning `path[i:]` at the first dot. -/
def extLoop (path : List Char) : Nat → List Char
  | 0 => []
  | i + 1 =>
    match path[i]? with
    | none => []
    | some c =>
      if c = '/' then []
      else if c = '.' then path.drop i
      else extLoop path i

/-- Function `filepath.Ext`, with `/` as the path separator. -/
def Ext (path : String) : String := String.mk (extLoop path.data path.data.length)

/-- Errors that travel through `WalkDir`: the sentinel `filepath.SkipDir` or a
real error. -/
inductive WalkErr where
  | skipDir
  | other (err : String)
deriving DecidableEq, Repr

/-- The callback passed to `filepath.WalkDir` (lines 43-59).  The argument
`squashImports` is the effect of `squashImports(path)` on the outside world. -/
def walkFn {σ : Type} (squashImports : String → σ → Option String × σ)
    (path : String) (entry : Tree) (err : Option String) (w : σ) : Option WalkErr × σ :=
  match err with
  | some e => (some (.other e), w)
  | none =>
    let name := entry.name
    if entry.isDir && name = "vendor" then (some .skipDir, w)
    else if !entry.isRegular || Ext name ≠ ".go" then (none, w)
    else
      match squashImports path w with
      | (some e, w') => (some (.other e), w')
      | (none, w') => (none, w')

/-- The backward loop of the `..` case of `filepath.Clean`:
`for out.w > dotdot && !os.IsPathSeparator(out.index(out.w)) { out.w-- }`,
started at the given `out.w`. -/
def cleanBacktrack (buf : List Char) (dotdot : Nat) : Nat → Nat
  | 0 => 0
  | w + 1 =>
    if w + 1 > dotdot ∧ buf.getD (w + 1) '/' ≠ '/' then cleanBacktrack buf dotdot w
    else w + 1

/-- The loop `for r < n` of `filepath.Clean`: `rest` is `path[r:]`, `out` the
bytes written so far (`out.w` is its length).  The first argument bounds the
number of iterations; every iteration consumes at least one byte of `rest`. -/
def cleanLoop (rooted : Bool) : Nat → List Char → List Char → Nat → List Char
  | 0, _, out, _ => out
  | _ + 1, [], out, _ => out
  | fuel + 1, c :: rest, out, dotdot =>
    if c = '/' then
      -- empty path element
      cleanLoop rooted fuel rest out dotdot
    else if c = '.' ∧ (rest = [] ∨ rest.head? = some '/') then
      -- . element
      cleanLoop rooted fuel rest out dotdot
    else if c = '.' ∧ rest.head? = some '.' ∧
        (rest.tail = [] ∨ rest.tail.head? = some '/') then
      -- .. element: remove to last separator
      if out.length > dotdot then
        cleanLoop rooted fuel rest.tail
          (out.take (cleanBacktrack out dotdot (out.length - 1))) dotdot
      else if !rooted then
        let out1 := (if out.length > 0 then out ++ ['/'] else out) ++ ['.', '.']
        cleanLoop rooted fuel rest.tail out1 out1.length
      else cleanLoop rooted fuel rest.tail out dotdot
    else
      -- real path element: add slash if needed, copy element
      let out1 :=
        if (rooted ∧ out.length ≠ 1) ∨ (¬ rooted ∧ out.length ≠ 0) then out ++ ['/'] else out
      cleanLoop rooted fuel ((c :: rest).dropWhile (fun x => x ≠ '/'))
        (out1 ++ (c :: rest).takeWhile (fun x => x ≠ '/')) dotdot

/-- Function `filepath.Clean`, with `/` as the path separator and no volume
name. -/
def Clean (path : String) : String :=
  match path.data with
  | [] => "."
  | c :: rest =>
    let rooted := decide (c = '/')
    let out :=
      if rooted then cleanLoop rooted (c :: rest).length rest ['/'] 1
      else cleanLoop rooted (c :: rest).length (c :: rest) [] 0
    -- Turn empty string into "."
    String.mk (if out.length = 0 then ['.'] else out)

/-- Function `filepath.Join(path, name)`: the first non-empty element on, the
elements are joined by `/` and the result is cleaned. -/
def Join (path name : String) : String :=
  if path ≠ "" then Clean (path ++ "/" ++ name)
  else if name ≠ "" then Clean name
  else ""

mutual
/-- Function `walkDir` of `path/filepath`. -/
def walkDir {σ : Type} (fn : String → Tree → Option String → σ → Option WalkErr × σ)
    (path : String) : Tree → σ → Option WalkErr × σ
  | .file name regular, w => fn path (.file name regular) none w
  | .dir name readErr entries, w =>
    match fn path (.dir name readErr entries) none w with
    | (some .skipDir, w1) => (none, w1)
    | (some err, w1) => (some err, w1)
    | (none, w1) =>
      match readErr with
      | some e =>
        -- second call, to report the error of ReadDir
        match fn path (.dir name readErr entries) (some e) w1 with
        | (some .skipDir, w2) => (none, w2)
        | (some err, w2) => (some err, w2)
        | (none, w2) => walkEntries fn path entries w2
      | none => walkEntries fn path entries w1
/-- The loop `for _, d1 := range dirs` of `walkDir`. -/
def walkEntries {σ : Type} (fn : String → Tree → Option String → σ → Option WalkErr × σ)
    (path : String) : List Tree → σ → Option WalkErr × σ
  | [], w => (none, w)
  | d1 :: rest, w =>
    match walkDir fn (Join path d1.name) d1 w with
    | (some .skipDir, w1) => (none, w1)
    | (some err, w1) => (some err, w1)
    | (none, w1) => walkEntries fn path rest w1
end

/-- Function `filepath.WalkDir`; `lstat` is the outcome of `os.Lstat(root)`,
which does not follow a symbolic link, together with the tree below `root`. -/
def WalkDir {σ : Type} (fn : String → Tree → Option String → σ → Option WalkErr × σ)
    (root : String) (lstat : Except String Tree) (w : σ) : Option String × σ :=
  let r := match lstat with
    | .error e => fn root (.file "" false) (some e) w
    | .ok tree => walkDir fn root tree w
  match r with
  | (some .skipDir, w1) => (none, w1)
  | (some (.other e), w1) => (some e, w1)
  | (none, w1) => (none, w1)

/-- Function `processPath` (lines 33-60).  `stat` is the outcome of
`os.Stat(path)`, which follows symbolic links, reduced to `info.IsDir()`;
`lstat` is the outcome of the `os.Lstat(path)` that `filepath.WalkDir` makes on
its root, with the tree below it; `squashImports` is the effect of
`squashImports(path)` on the outside world. -/
def processPath {σ : Type} (squashImports : String → σ → Option String × σ)
    (path : String) (stat : Except String Bool) (lstat : Except String Tree) (w : σ) :
    Option String × σ :=
  match stat with
  | .error e => (some e, w)
  | .ok false =>
    if Ext path ≠ ".go" then (some (path ++ ": not a Go file"), w)
    else squashImports path w
  | .ok true => WalkDir (walkFn squashImports) path lstat w


/-! ## Notions used to state the properties -/

/-- Number of table entries that are `<= x`; on a sorted table this is the line
of offset `x` in the table, the line of `PositionFor(x, false)`. -/
def countLE (a : List Nat) (x : Nat) : Nat := a.countP (fun y => decide (y ≤ x))

/-- Text line number `L` (1-based, `lines[L-1]` in the code) is empty after
`strings.TrimSpace`. -/
def blankLine (lines : List (List Char)) (L : Nat) : Bool :=
  match lines[L - 1]? with
  | some text => decide (TrimSpace text = [])
  | none => false

/-- Number of blank lines `L` with `s < L`, `L <= line` and `L < x`. -/
def cntBelow (lines : List (List Char)) (s line x : Nat) : Nat :=
  (List.range (line + 1)).countP (fun L => decide (s < L) && blankLine lines L && decide (L < x))

/-- The blank interior lines: the blank lines `L` with `s < L < e`. -/
def interiorBlanks (lines : List (List Char)) (s e : Nat) : List Nat :=
  (List.range e).filter (fun L => decide (s < L) && blankLine lines L)

/-- Byte offset of the first character of each text line, the first line
starting at `off`; every line is followed by one line feed. -/
def lineStarts : List (List Char) → Nat → List Nat
  | [], _ => []
  | l :: ls, off => off :: lineStarts ls (off + byteLen l + 1)

/-- Byte offset at which text line number `k + 1` starts. -/
def lineStart (lines : List (List Char)) (k : Nat) : Nat :=
  ((lines.take k).map (fun l => byteLen l + 1)).sum

/-- Line numbers on which `MergeLine` was called during a run. -/
def mergedLines (trace : List Step) : List Nat :=
  (trace.filter (fun step => step.merged)).map (fun step => step.line)

/-- Line numbers on which a call of `squashImports` that returned has called
`MergeLine`: the scan is the only caller, and a scan that leaves `changed` false
made no call. -/
def Result.mergeCalls : Result → List Nat
  | .rewrite st => mergedLines st.trace
  | _ => []

/-- Consistency of a parse result with the file text: the table is the one the
scanner builds; the directives are as `AddLineColumnInfo` keeps them (offsets
increasing and inside the file) with the line numbers the scanner accepts
(`>= 1`); the import entries are in source order, inside the file, and each
entry stands on a text line that is not blank. -/
structure WellFormed (pf : ParsedFile) : Prop where
  table : pf.tokenFile.lines = lineTable pf.data
  size : pf.tokenFile.size = byteLen pf.data
  directives : pf.tokenFile.infos.Pairwise (fun a b => a.Offset < b.Offset) ∧
    ∀ info ∈ pf.tokenFile.infos, info.Offset < pf.tokenFile.size ∧ 1 ≤ info.Line
  ordered : pf.imports.Pairwise (· < ·)
  inFile : ∀ p ∈ pf.imports, p < byteLen pf.data
  onText : ∀ p ∈ pf.imports,
    blankLine (Split pf.data) (pf.tokenFile.PositionFor p false) = false

/-- What the scan loop guarantees for each recorded iteration. -/
def StepOk (lines : List (List Char)) (s line : Nat) (table0 : List Nat) (step : Step) : Prop :=
  s < step.line ∧ step.line ≤ line ∧ step.merged = blankLine lines step.line ∧
  step.table.take (step.line + 1) = table0.take (step.line + 1) ∧
  step.table.Pairwise (· < ·) ∧ step.line < step.table.length ∧ step.line - 1 < lines.length

/-- `Reached path tree p d`: the walk started on `tree` at `path` comes to the
entry `d` at path `p`: every directory passed on the way down, `tree` included
when `d` is not `tree` itself, is not named `vendor`. -/
inductive Reached : String → Tree → String → Tree → Prop where
  | root (path : String) (t : Tree) : Reached path t path t
  | descend (path name : String) (readErr : Option String) (entries : List Tree) (d : Tree)
      (p : String) (t : Tree) :
      name ≠ "vendor" → d ∈ entries → Reached (Join path d.name) d p t →
      Reached path (.dir name readErr entries) p t

/-- The files that the walk has to hand to `squashImports`: the regular files
with extension `.go` that are reached. -/
def Eligible (path : String) (tree : Tree) (p : String) : Prop :=
  ∃ name, Reached path tree p (.file name true) ∧ Ext name = ".go"

mutual
/-- The paths of the regular files with extension `.go` that are reached from
`tree` at `path`, in the order of the entries. -/
def eligibleFiles (path : String) : Tree → List String
  | .file name regular => if regular ∧ Ext name = ".go" then [path] else []
  | .dir name _ entries => if name = "vendor" then [] else eligibleEntries path entries
/-- The eligible files below the entries of the directory at `path`. -/
def eligibleEntries (path : String) : List Tree → List String
  | [] => []
  | d :: rest => eligibleFiles (Join path d.name) d ++ eligibleEntries path rest
end

/-- The world after `f` (a `squashImports` or a `processPath`) was called on the
given paths one after the other, each call starting from the world that the
call before it left. -/
def worldAfter {σ : Type} (f : String → σ → Option String × σ)
    (paths : List String) (w : σ) : σ :=
  paths.foldl (fun w p => (f p w).2) w

/-- A `processPath` that writes down the path it is called on and fails on the
path `bad`. -/
def recordPath (path : String) (log : List String) : Option String × List String :=
  (if path = "bad" then some "bad: not a Go file" else none, log ++ [path])


/-! ## Example inputs -/

/-- The file `package main`, blank, `import (`, `"a"`, blank, `"b"`, `)`. -/
def twoImports : ParsedFile :=
  { data := "package main\n\nimport (\n\t\"a\"\n\n\t\"b\"\n)\n".toList
    tokenFile := ⟨36, [0, 13, 14, 23, 28, 29, 34], []⟩
    imports := [24, 30]
    comments := [] }

/-- A file with four imports on lines 4, 7, 8 and 10, blank lines 5, 6 and 9,
and a comment on line 12, away from the import block. -/
def fourImports : ParsedFile :=
  { data := "package main\n\nimport (\n\t\"a\"\n\n\n\t\"b\"\n\t\"c\"\n \n\t\"d\"\n)\n// x\nvar x = 1".toList
    tokenFile := ⟨63, [0, 13, 14, 23, 28, 29, 30, 35, 40, 42, 47, 49, 54], []⟩
    imports := [24, 31, 36, 43]
    comments := [⟨49, 53⟩] }

/-- The file of `twoImports` with a line comment after `import (` on line 3,
the line before the first import entry. -/
def lineComment : ParsedFile :=
  { data := "package main\n\nimport ( // c\n\t\"a\"\n\n\t\"b\"\n)\n".toList
    tokenFile := ⟨41, [0, 13, 14, 28, 33, 34, 39], []⟩
    imports := [29, 35]
    comments := [⟨23, 27⟩] }

/-- The file of `twoImports` with a block comment that starts after `import (`
on line 3 and ends on line 4 in front of the first import entry. -/
def blockComment : ParsedFile :=
  { data := "package main\n\nimport ( /* c\n*/ \"a\"\n\n\t\"b\"\n)\n".toList
    tokenFile := ⟨43, [0, 13, 14, 28, 35, 36, 41], []⟩
    imports := [31, 37]
    comments := [⟨23, 30⟩] }

/-- A file that starts with the directive `//line x.go:4`: `package main` on
text line 2, the entries `import "a"` and `import "b"` on text lines 3 and 6,
text lines 4 and 5 blank.  The directive makes `File.Line` count text line 2 as
line 4, so the two entries are reported on lines 5 and 8. -/
def shiftedUp : ParsedFile :=
  { data := "//line x.go:4\npackage main\nimport \"a\"\n\n\nimport \"b\"\n".toList
    tokenFile := ⟨51, [0, 14, 27, 38, 39, 40], [⟨14, 4⟩]⟩
    imports := [34, 47]
    comments := [⟨0, 13⟩] }

/-- A file with `package main` on text line 1, text lines 2 to 4 blank, the
directive `//line x.go:1` on text line 5, `import "a"` on text line 6, text
line 7 blank and `import "b"` on text line 8.  `File.Line` reports the entries
on lines 1 and 3. -/
def restartAtOne : ParsedFile :=
  { data := "package main\n\n\n\n//line x.go:1\nimport \"a\"\n\nimport \"b\"\n".toList
    tokenFile := ⟨53, [0, 13, 14, 15, 16, 30, 41, 42], [⟨30, 1⟩]⟩
    imports := [37, 49]
    comments := [⟨16, 29⟩] }

/-- A file with `package main` on text line 1, text line 2 blank, the directive
`//line x.go:6` on text line 3, `import "a"` on text line 4, text line 5 blank,
`import "b"` on text line 6, text line 7 blank and `var x int` on text line 8.
`File.Line` reports the entries on lines 6 and 8. -/
def beforeVar : ParsedFile :=
  { data :=
      "package main\n\n//line x.go:6\nimport \"a\"\n\nimport \"b\"\n\nvar x int\n".toList
    tokenFile := ⟨62, [0, 13, 14, 28, 39, 40, 51, 52], [⟨28, 6⟩]⟩
    imports := [35, 47]
    comments := [⟨14, 27⟩] }

/-- A file system that holds the single file `a.go`. -/
def oneGoFile : FS := FS.set (fun _ => none) "a.go" (some ⟨"old", 420⟩)

/-- An environment in which `format.Node` fails and `os.Remove` fails too. -/
def formatAndRemoveFail : Env :=
  { stat := none, openFile := none, formatNode := some "no space left on device", flush := none,
    rename := none, close := none, remove := some "input/output error", written := "pack" }

/-- An environment in which only `os.Rename` fails. -/
def renameFails : Env :=
  { stat := none, openFile := none, formatNode := none, flush := none,
    rename := some "permission denied", close := none, remove := none, written := "" }

theorem countLE_le_length (a : List Nat) (x : Nat) : countLE a x ≤ a.length :=
  List.countP_le_length _

theorem countLE_eq_zero_of_forall_gt (a : List Nat) (x : Nat) (h : ∀ y ∈ a, x < y) :
    countLE a x = 0 := by
  unfold countLE
  rw [List.countP_eq_zero]
  intro y hy
  have := h y hy
  simp; omega

theorem getD_le_iff_lt_countLE (a : List Nat) (x : Nat) (hs : a.Pairwise (· < ·)) :
    ∀ h, h < a.length → (a.getD h 0 ≤ x ↔ h < countLE a x) := by
  induction a with
  | nil => intro h hh; simp at hh
  | cons y ys ih =>
    intro h hh
    rw [List.pairwise_cons] at hs
    by_cases hy : y ≤ x
    · have hc : countLE (y :: ys) x = countLE ys x + 1 := by
        unfold countLE; rw [List.countP_cons]; simp [hy]
      cases h with
      | zero => simp [hc, hy]
      | succ k =>
        have := ih hs.2 k (by simpa using hh)
        simp only [List.getD_cons_succ, hc]
        omega
    · have hall : ∀ z ∈ y :: ys, x < z := by
        intro z hz
        rcases List.mem_cons.1 hz with rfl | hz
        · omega
        · have := hs.1 z hz; omega
      rw [countLE_eq_zero_of_forall_gt _ _ hall]
      have hm : (y :: ys).getD h 0 ∈ y :: ys := by
        rw [List.getD_eq_getElem _ _ hh]; exact List.getElem_mem _
      have := hall _ hm
      omega

theorem searchIntsLoop_eq (a : List Nat) (x : Nat) (hs : a.Pairwise (· < ·)) :
    ∀ fuel i j, i ≤ countLE a x → countLE a x ≤ j → j ≤ a.length → j - i ≤ fuel →
      searchIntsLoop a x fuel i j = countLE a x := by
  intro fuel
  induction fuel with
  | zero => intro i j hi hj _ hf; simp only [searchIntsLoop]; omega
  | succ n ih =>
    intro i j hi hj hl hf
    simp only [searchIntsLoop]
    by_cases hij : i < j
    · rw [if_pos hij]
      have hh : (i + j) / 2 < a.length := by omega
      have key := getD_le_iff_lt_countLE a x hs _ hh
      by_cases hle : a.getD ((i + j) / 2) 0 ≤ x
      · rw [if_pos hle]
        exact ih _ _ (by have := key.1 hle; omega) hj hl (by omega)
      · rw [if_neg hle]
        exact ih _ _ hi (by have := mt key.2 hle; omega) (by omega) (by omega)
    · rw [if_neg hij]; omega

/-- On a table in increasing order the line of `PositionFor(p, false)` is the
number of table entries up to `p`. -/
theorem PositionFor_eq_countLE (f : File) (p : Nat) (hs : f.lines.Pairwise (· < ·)) :
    f.PositionFor p false = countLE f.lines p := by
  have h := searchIntsLoop_eq f.lines p hs f.lines.length 0 f.lines.length
    (Nat.zero_le _) (countLE_le_length _ _) le_rfl (by omega)
  simp only [File.PositionFor, File.unpack, searchInts, h, Bool.false_and, Bool.false_eq_true,
    if_false]
  split
  · omega
  · omega

/-- Without a `//line` directive `File.Line` is the line of the table. -/
theorem Line_eq_PositionFor (f : File) (p : Nat) (hinf : f.infos = []) :
    f.Line p = f.PositionFor p false := by
  simp [File.Line, File.PositionFor, File.unpack, hinf]

theorem Line_eq_countLE (f : File) (p : Nat) (hinf : f.infos = [])
    (hs : f.lines.Pairwise (· < ·)) : f.Line p = countLE f.lines p := by
  rw [Line_eq_PositionFor f p hinf, PositionFor_eq_countLE f p hs]

theorem countLE_eraseIdx (a : List Nat) (x : Nat) :
    ∀ L, L < a.length →
      countLE (a.eraseIdx L) x + (if a.getD L 0 ≤ x then 1 else 0) = countLE a x := by
  induction a with
  | nil => intro L hL; simp at hL
  | cons y ys ih =>
    intro L hL
    cases L with
    | zero =>
      simp only [List.eraseIdx_cons_zero, List.getD_cons_zero, countLE, List.countP_cons]
      by_cases hy : y ≤ x <;> simp [hy]
    | succ k =>
      have := ih k (by simpa using hL)
      simp only [List.eraseIdx_cons_succ, List.getD_cons_succ, countLE, List.countP_cons] at this ⊢
      omega

theorem countLE_merge (a : List Nat) (x L : Nat) (hs : a.Pairwise (· < ·)) (hL : L < a.length) :
    countLE (a.eraseIdx L) x = if L < countLE a x then countLE a x - 1 else countLE a x := by
  have h1 := countLE_eraseIdx a x L hL
  have h2 := getD_le_iff_lt_countLE a x hs L hL
  by_cases h : L < countLE a x
  · rw [if_pos (h2.2 h)] at h1; rw [if_pos h]; omega
  · rw [if_neg (mt h2.1 h)] at h1; rw [if_neg h]; omega

theorem take_eraseIdx_of_le {α : Type} (a : List α) : ∀ (k i : Nat), k ≤ i →
    (a.eraseIdx i).take k = a.take k := by
  induction a with
  | nil => intro k i _; simp
  | cons y ys ih =>
    intro k i hki
    cases k with
    | zero => simp
    | succ k =>
      cases i with
      | zero => omega
      | succ i => simp [ih k i (by omega)]

theorem cntBelow_zero_of_le (lines : List (List Char)) (s line x : Nat) (h : line ≤ s) :
    cntBelow lines s line x = 0 := by
  unfold cntBelow
  rw [List.countP_eq_zero]
  intro L hL
  have := List.mem_range.1 hL
  have : ¬ s < L := by omega
  simp [this]

theorem cntBelow_succ (lines : List (List Char)) (s line x : Nat) :
    cntBelow lines s (line + 1) x = cntBelow lines s line x +
      (if s < line + 1 ∧ blankLine lines (line + 1) = true ∧ line + 1 < x then 1 else 0) := by
  unfold cntBelow
  rw [List.range_succ, List.countP_append]
  congr 1
  simp only [List.countP_cons, List.countP_nil]
  by_cases h1 : s < line + 1 <;> by_cases h2 : blankLine lines (line + 1) = true <;>
    by_cases h3 : line + 1 < x <;> simp [h1, h2, h3]

theorem cntBelow_congr (lines : List (List Char)) (s line x y : Nat) (hx : line < x) (hy : line < y) :
    cntBelow lines s line x = cntBelow lines s line y := by
  unfold cntBelow
  apply List.countP_congr
  intro L hL
  have := List.mem_range.1 hL
  have h1 : L < x := by omega
  have h2 : L < y := by omega
  simp [h1, h2]

theorem StepOk.mono {lines : List (List Char)} {s line : Nat} {table0 : List Nat} {step : Step}
    (h : StepOk lines s line (table0.eraseIdx (line + 1)) step) :
    StepOk lines s (line + 1) table0 step := by
  obtain ⟨h1, h2, h3, h4, h5, h6, h7⟩ := h
  refine ⟨h1, by omega, h3, ?_, h5, h6, h7⟩
  rw [h4, take_eraseIdx_of_le _ _ _ (by omega)]

theorem StepOk.mono_same {lines : List (List Char)} {s line : Nat} {table0 : List Nat} {step : Step}
    (h : StepOk lines s line table0 step) :
    StepOk lines s (line + 1) table0 step := by
  obtain ⟨h1, h2, h3, h4, h5, h6, h7⟩ := h
  exact ⟨h1, by omega, h3, h4, h5, h6, h7⟩

theorem scanLoop_spec (lines : List (List Char)) (s : Nat) :
    ∀ (line : Nat) (st : ScanState), st.tokenFile.lines.Pairwise (· < ·) →
      (line = 0 ∨ line < st.tokenFile.lines.length) → line ≤ lines.length →
      ∃ st' steps, scanLoop lines s line st = some st' ∧
        st'.tokenFile.lines.Pairwise (· < ·) ∧
        st'.tokenFile.size = st.tokenFile.size ∧
        (∀ p, countLE st'.tokenFile.lines p +
            cntBelow lines s line (countLE st.tokenFile.lines p) = countLE st.tokenFile.lines p) ∧
        st'.changed = (st.changed ||
          (List.range (line + 1)).any (fun L => decide (s < L) && blankLine lines L)) ∧
        st'.trace = st.trace ++ steps ∧
        (∀ step ∈ steps, StepOk lines s line st.tokenFile.lines step) ∧
        (∀ L, s < L → L ≤ line → ∃ step ∈ steps, step.line = L) := by
  intro line
  induction line with
  | zero =>
    intro st hs _ _
    refine ⟨st, [], rfl, hs, rfl, ?_, ?_, by simp, by simp, ?_⟩
    · intro p; rw [cntBelow_zero_of_le _ _ _ _ (Nat.zero_le _)]; rfl
    · simp
    · intro L h1 h2; omega
  | succ line ih =>
    intro st hs hN hT
    by_cases hgt : line + 1 > s
    · have hlt : line < lines.length := by omega
      have hget : lines[line + 1 - 1]? = some lines[line] := by
        simp [List.getElem?_eq_getElem hlt]
      have hblank : blankLine lines (line + 1) = decide (TrimSpace lines[line] = []) := by
        simp [blankLine, List.getElem?_eq_getElem hlt]
      have hany : (List.range (line + 1 + 1)).any (fun L => decide (s < L) && blankLine lines L)
          = ((List.range (line + 1)).any (fun L => decide (s < L) && blankLine lines L)
              || blankLine lines (line + 1)) := by
        rw [List.range_succ, List.any_append]
        simp [hgt]
      by_cases hb : TrimSpace lines[line] = []
      · -- blank line: MergeLine is called
        have hlen : line + 1 < st.tokenFile.lines.length := by omega
        have hmerge : st.tokenFile.MergeLine (line + 1) =
            some { st.tokenFile with lines := st.tokenFile.lines.eraseIdx (line + 1) } := by
          simp only [File.MergeLine]
          rw [if_neg (by omega), if_neg (by omega)]
        have hs1 : (st.tokenFile.lines.eraseIdx (line + 1)).Pairwise (· < ·) :=
          hs.sublist (List.eraseIdx_sublist _ _)
        have hN1 : line = 0 ∨ line < (st.tokenFile.lines.eraseIdx (line + 1)).length := by
          right; rw [List.length_eraseIdx_of_lt hlen]; omega
        obtain ⟨st', steps, hrun, hsorted, hsize, hline, hch, htr, hsteps, hall⟩ :=
          ih { tokenFile := { st.tokenFile with lines := st.tokenFile.lines.eraseIdx (line + 1) },
               changed := true,
               trace := st.trace ++ [⟨line + 1, st.tokenFile.lines, true⟩] } hs1 hN1 (by omega)
        refine ⟨st', ⟨line + 1, st.tokenFile.lines, true⟩ :: steps, ?_, hsorted, hsize, ?_, ?_, ?_, ?_, ?_⟩
        · simp only [scanLoop]
          rw [if_pos hgt, hget]
          simp only [hb, if_true, hmerge]
          exact hrun
        · intro p
          have h1 := hline p
          simp only at h1
          rw [countLE_merge _ _ _ hs hlen] at h1
          rw [cntBelow_succ]
          have hbl : blankLine lines (line + 1) = true := by rw [hblank]; simp [hb]
          by_cases hc : line + 1 < countLE st.tokenFile.lines p
          · rw [if_pos hc] at h1
            rw [if_pos ⟨hgt, hbl, hc⟩]
            rw [cntBelow_congr lines s line (countLE st.tokenFile.lines p - 1)
              (countLE st.tokenFile.lines p) (by omega) (by omega)] at h1
            omega
          · rw [if_neg hc] at h1
            rw [if_neg (by tauto)]
            omega
        · rw [hch, hany, hblank]; simp [hb]
        · rw [htr]; simp
        · intro step hstep
          rcases List.mem_cons.1 hstep with rfl | hstep
          · exact ⟨hgt, le_rfl, by rw [hblank]; simp [hb], rfl, hs, hlen, by simp; omega⟩
          · exact (hsteps step hstep).mono
        · intro L h1 h2
          by_cases hL : L = line + 1
          · exact ⟨_, List.mem_cons_self _ _, hL.symm⟩
          · obtain ⟨step, hm, he⟩ := hall L h1 (by omega)
            exact ⟨step, List.mem_cons_of_mem _ hm, he⟩
      · -- non-blank line
        have hN1 : line = 0 ∨ line < st.tokenFile.lines.length := by omega
        obtain ⟨st', steps, hrun, hsorted, hsize, hline, hch, htr, hsteps, hall⟩ :=
          ih { st with trace := st.trace ++ [⟨line + 1, st.tokenFile.lines, false⟩] } hs hN1 (by omega)
        have hbl : ¬ blankLine lines (line + 1) = true := by rw [hblank]; simp [hb]
        refine ⟨st', ⟨line + 1, st.tokenFile.lines, false⟩ :: steps, ?_, hsorted, hsize, ?_, ?_, ?_, ?_, ?_⟩
        · simp only [scanLoop]
          rw [if_pos hgt, hget]
          simp only [hb, if_false]
          exact hrun
        · intro p
          have h1 := hline p
          simp only at h1
          rw [cntBelow_succ, if_neg (by tauto)]
          omega
        · rw [hch, hany]; simp [hbl]
        · rw [htr]; simp
        · intro step hstep
          rcases List.mem_cons.1 hstep with rfl | hstep
          · exact ⟨hgt, le_rfl, by simp [hbl], rfl, hs, (show line + 1 < st.tokenFile.lines.length by omega), by simp; omega⟩
          · exact (hsteps step hstep).mono_same
        · intro L h1 h2
          by_cases hL : L = line + 1
          · exact ⟨_, List.mem_cons_self _ _, hL.symm⟩
          · obtain ⟨step, hm, he⟩ := hall L h1 (by omega)
            exact ⟨step, List.mem_cons_of_mem _ hm, he⟩
    · refine ⟨st, [], ?_, hs, rfl, ?_, ?_, by simp, by simp, ?_⟩
      · simp only [scanLoop]; rw [if_neg hgt]
      · intro p; rw [cntBelow_zero_of_le _ _ _ _ (by omega)]; rfl
      · have : (List.range (line + 1 + 1)).any (fun L => decide (s < L) && blankLine lines L) = false := by
          rw [List.any_eq_false]
          intro L hL
          have := List.mem_range.1 hL
          have : ¬ s < L := by omega
          simp [this]
        rw [this]; simp
      · intro L h1 h2; omega

theorem Split_ne_nil (data : List Char) : Split data ≠ [] := by
  cases data with
  | nil => simp [Split]
  | cons c cs =>
    simp only [Split]
    split
    · simp
    · split <;> simp

theorem byteLen_cons (c : Char) (s : List Char) : byteLen (c :: s) = c.utf8Size + byteLen s := by
  simp [byteLen]

theorem lineFeeds_eq (data : List Char) :
    ∀ off, off :: lineFeeds data off = lineStarts (Split data) off := by
  induction data with
  | nil => intro off; simp [Split, lineFeeds, lineStarts]
  | cons c cs ih =>
    intro off
    by_cases hc : c = '\n'
    · subst hc
      have h1 : ('\n' : Char).utf8Size = 1 := by decide
      simp only [Split, lineFeeds, if_true, lineStarts, h1]
      rw [ih (off + 1)]
      simp [byteLen]
    · simp only [Split, lineFeeds, if_neg hc]
      have h := ih (off + c.utf8Size)
      cases hsp : Split cs with
      | nil => exact absurd hsp (Split_ne_nil cs)
      | cons l ls =>
        rw [hsp] at h
        simp only [lineStarts] at h ⊢
        rw [byteLen_cons]
        have h2 := (List.cons.inj h).2
        rw [h2]
        congr 2
        omega

theorem lineStarts_ge (ls : List (List Char)) : ∀ off, ∀ x ∈ lineStarts ls off, off ≤ x := by
  induction ls with
  | nil => intro off x hx; simp [lineStarts] at hx
  | cons l ls ih =>
    intro off x hx
    simp only [lineStarts, List.mem_cons] at hx
    rcases hx with rfl | hx
    · exact le_rfl
    · have := ih _ x hx; omega

theorem lineStarts_sorted (ls : List (List Char)) :
    ∀ off, (lineStarts ls off).Pairwise (· < ·) := by
  induction ls with
  | nil => intro off; simp [lineStarts]
  | cons l ls ih =>
    intro off
    simp only [lineStarts, List.pairwise_cons]
    refine ⟨?_, ih _⟩
    intro x hx
    have := lineStarts_ge ls _ x hx
    omega

theorem lineStarts_length (ls : List (List Char)) : ∀ off, (lineStarts ls off).length = ls.length := by
  induction ls with
  | nil => intro off; rfl
  | cons l ls ih => intro off; simp [lineStarts, ih]

theorem lineTable_sublist (data : List Char) :
    (lineTable data).Sublist (lineStarts (Split data) 0) := by
  rw [← lineFeeds_eq data 0]
  exact List.Sublist.cons₂ _ (List.filter_sublist _)

theorem lineTable_sorted (data : List Char) : (lineTable data).Pairwise (· < ·) :=
  (lineStarts_sorted _ 0).sublist (lineTable_sublist data)

theorem lineTable_length_le (data : List Char) : (lineTable data).length ≤ (Split data).length := by
  have := (lineTable_sublist data).length_le
  rwa [lineStarts_length] at this

theorem countLE_lineTable (data : List Char) (p : Nat) (hp : p < byteLen data) :
    countLE (lineTable data) p = countLE (lineStarts (Split data) 0) p := by
  rw [← lineFeeds_eq data 0]
  simp only [countLE, lineTable, List.countP_cons]
  congr 1
  rw [List.countP_filter]
  apply List.countP_congr
  intro x _
  simp only [Bool.and_eq_true, decide_eq_true_eq]
  constructor
  · intro h; exact h.1
  · intro h; exact ⟨h, by omega⟩

theorem scanLoop_safe (lines : List (List Char)) (s : Nat) :
    ∀ (line : Nat) (st : ScanState),
      (line = 0 ∨ line < st.tokenFile.lines.length) → line ≤ lines.length →
      ∃ st' steps, scanLoop lines s line st = some st' ∧ st'.trace = st.trace ++ steps ∧
        (∀ step ∈ steps, 1 ≤ step.line ∧ step.line - 1 < lines.length ∧
          step.line < step.table.length) ∧
        st'.tokenFile.lines.length + (mergedLines steps).length = st.tokenFile.lines.length := by
  intro line
  induction line with
  | zero => intro st _ _; exact ⟨st, [], rfl, by simp, by simp, by simp [mergedLines]⟩
  | succ line ih =>
    intro st hN hT
    by_cases hgt : line + 1 > s
    · have hlt : line < lines.length := by omega
      have hget : lines[line + 1 - 1]? = some lines[line] := by
        simp [List.getElem?_eq_getElem hlt]
      have hlen : line + 1 < st.tokenFile.lines.length := by omega
      have hfirst : ∀ b : Bool, 1 ≤ (Step.mk (line + 1) st.tokenFile.lines b).line ∧
          (Step.mk (line + 1) st.tokenFile.lines b).line - 1 < lines.length ∧
          (Step.mk (line + 1) st.tokenFile.lines b).line <
            (Step.mk (line + 1) st.tokenFile.lines b).table.length := by
        intro b; exact ⟨by simp, by simp; omega, hlen⟩
      by_cases hb : TrimSpace lines[line] = []
      · have hmerge : st.tokenFile.MergeLine (line + 1) =
            some { st.tokenFile with lines := st.tokenFile.lines.eraseIdx (line + 1) } := by
          simp only [File.MergeLine]
          rw [if_neg (by omega), if_neg (by omega)]
        have hN1 : line = 0 ∨ line < (st.tokenFile.lines.eraseIdx (line + 1)).length := by
          right; rw [List.length_eraseIdx_of_lt hlen]; omega
        obtain ⟨st', steps, hrun, htr, hsteps, hcount⟩ :=
          ih { tokenFile := { st.tokenFile with lines := st.tokenFile.lines.eraseIdx (line + 1) },
               changed := true,
               trace := st.trace ++ [⟨line + 1, st.tokenFile.lines, true⟩] } hN1 (by omega)
        refine ⟨st', ⟨line + 1, st.tokenFile.lines, true⟩ :: steps, ?_, ?_, ?_, ?_⟩
        · simp only [scanLoop]
          rw [if_pos hgt, hget]
          simp only [hb, if_true, hmerge]
          exact hrun
        · rw [htr]; simp
        · intro step hstep
          rcases List.mem_cons.1 hstep with rfl | hstep
          · exact hfirst true
          · exact hsteps step hstep
        · simp only [List.length_eraseIdx_of_lt hlen] at hcount
          simp only [mergedLines, List.filter_cons_of_pos, List.map_cons, List.length_cons] at hcount ⊢
          omega
      · have hN1 : line = 0 ∨ line < st.tokenFile.lines.length := by omega
        obtain ⟨st', steps, hrun, htr, hsteps, hcount⟩ :=
          ih { st with trace := st.trace ++ [⟨line + 1, st.tokenFile.lines, false⟩] } hN1 (by omega)
        refine ⟨st', ⟨line + 1, st.tokenFile.lines, false⟩ :: steps, ?_, ?_, ?_, ?_⟩
        · simp only [scanLoop]
          rw [if_pos hgt, hget]
          simp only [hb, if_false]
          exact hrun
        · rw [htr]; simp
        · intro step hstep
          rcases List.mem_cons.1 hstep with rfl | hstep
          · exact hfirst false
          · exact hsteps step hstep
        · simp only [mergedLines] at hcount ⊢
          simpa using hcount
    · exact ⟨st, [], by simp only [scanLoop]; rw [if_neg hgt], by simp, by simp,
        by simp [mergedLines]⟩

theorem WellFormed.sorted {pf : ParsedFile} (h : WellFormed pf) :
    pf.tokenFile.lines.Pairwise (· < ·) := by
  rw [h.table]; exact lineTable_sorted _

theorem WellFormed.length_le {pf : ParsedFile} (h : WellFormed pf) :
    pf.tokenFile.lines.length ≤ (Split pf.data).length := by
  rw [h.table]; exact lineTable_length_le _

theorem any_range_pred (e s : Nat) (f : Nat → Bool) :
    (List.range (e - 1 + 1)).any (fun L => decide (s < L) && f L) =
      (List.range e).any (fun L => decide (s < L) && f L) := by
  cases e with
  | zero => simp
  | succ n => simp

theorem cntBelow_pred (lines : List (List Char)) (s e x : Nat) (hx : e ≤ x) :
    cntBelow lines s (e - 1) x = (interiorBlanks lines s e).length := by
  unfold cntBelow interiorBlanks
  rw [← List.countP_eq_length_filter]
  cases e with
  | zero => simp
  | succ n =>
    simp only [Nat.add_sub_cancel]
    apply List.countP_congr
    intro L hL
    have := List.mem_range.1 hL
    have h1 : L < x := by omega
    simp [h1]

theorem cntBelow_eq_zero_of_le (lines : List (List Char)) (s line x : Nat) (hx : x ≤ s + 1) :
    cntBelow lines s line x = 0 := by
  unfold cntBelow
  rw [List.countP_eq_zero]
  intro L _
  by_cases h1 : s < L
  · have : ¬ L < x := by omega
    simp [this]
  · simp [h1]

theorem MergeLine_infos (f f' : File) (L : Nat) (hm : f.MergeLine L = some f') :
    f'.infos = f.infos := by
  simp only [File.MergeLine] at hm
  split at hm
  · cases hm
  · split at hm
    · cases hm
    · cases hm; rfl

/-- The scan loop leaves the directives of the table as they are. -/
theorem scanLoop_infos (lines : List (List Char)) (s : Nat) :
    ∀ (line : Nat) (st st' : ScanState), scanLoop lines s line st = some st' →
      st'.tokenFile.infos = st.tokenFile.infos := by
  intro line
  induction line with
  | zero =>
    intro st st' h
    simp only [scanLoop, Option.some.injEq] at h
    subst h; rfl
  | succ line ih =>
    intro st st' h
    by_cases hgt : line + 1 > s
    · simp only [scanLoop] at h
      rw [if_pos hgt] at h
      split at h
      · cases h
      · split at h
        · split at h
          · cases h
          · rename_i f hm
            have h1 := ih _ _ h
            have h2 := MergeLine_infos _ _ _ hm
            rw [h1]; exact h2
        · have h1 := ih _ _ h
          rw [h1]
    · simp only [scanLoop] at h
      rw [if_neg hgt] at h
      cases h; rfl

/-- The scan of a file without `//line` directive whose table is sorted and not
longer than the text. -/
theorem scan_spec (pf : ParsedFile) (hinf : pf.tokenFile.infos = [])
    (hs : pf.tokenFile.lines.Pairwise (· < ·))
    (hl : pf.tokenFile.lines.length ≤ (Split pf.data).length) :
    ∃ st, scan pf = some st ∧
      st.tokenFile.infos = [] ∧
      st.tokenFile.lines.Pairwise (· < ·) ∧
      (∀ p, st.tokenFile.Line p +
          cntBelow (Split pf.data) (importsStartLine pf) (importsEndLine pf - 1)
            (pf.tokenFile.Line p) = pf.tokenFile.Line p) ∧
      st.changed = (List.range (importsEndLine pf)).any
        (fun L => decide (importsStartLine pf < L) && blankLine (Split pf.data) L) ∧
      (∀ step ∈ st.trace, StepOk (Split pf.data) (importsStartLine pf) (importsEndLine pf - 1)
          pf.tokenFile.lines step) ∧
      (∀ L, importsStartLine pf < L → L < importsEndLine pf → ∃ step ∈ st.trace, step.line = L) := by
  have he : importsEndLine pf ≤ pf.tokenFile.lines.length := by
    unfold importsEndLine
    rw [Line_eq_countLE _ _ hinf hs]; exact countLE_le_length _ _
  obtain ⟨st, steps, hrun, hsorted, _, hline, hch, htr, hsteps, hall⟩ :=
    scanLoop_spec (Split pf.data) (importsStartLine pf) (importsEndLine pf - 1)
      { tokenFile := pf.tokenFile, changed := false, trace := [] } hs
      (by show importsEndLine pf - 1 = 0 ∨ importsEndLine pf - 1 < pf.tokenFile.lines.length; omega)
      (by omega)
  have htr' : st.trace = steps := by simpa using htr
  have hinf' : st.tokenFile.infos = [] := by
    have := scanLoop_infos _ _ _ _ _ hrun
    rw [this]; exact hinf
  refine ⟨st, hrun, hinf', hsorted, ?_, ?_, ?_, ?_⟩
  · intro p
    rw [Line_eq_countLE _ _ hinf' hsorted, Line_eq_countLE _ _ hinf hs]
    exact hline p
  · rw [hch, any_range_pred]; simp
  · intro step hstep; rw [htr'] at hstep; exact hsteps step hstep
  · intro L h1 h2
    obtain ⟨step, hm, hL⟩ := hall L h1 (by omega)
    exact ⟨step, by rw [htr']; exact hm, hL⟩

theorem imports_start_eq_end (pf : ParsedFile) (h : pf.imports.length ≤ 1) :
    importsStartLine pf = importsEndLine pf := by
  unfold importsStartLine importsEndLine
  have : pf.imports.length - 1 = 0 := by omega
  rw [this]

theorem any_disqualifying_iff (pf : ParsedFile) :
    pf.comments.any (disqualifying pf.tokenFile (importsStartLine pf) (importsEndLine pf)) = true ↔
      ∃ c ∈ pf.comments,
        ((pf.tokenFile.Line c.endPos : Int) = (importsStartLine pf : Int) - 1 ∨
         (importsStartLine pf ≤ pf.tokenFile.Line c.pos ∧
           pf.tokenFile.Line c.pos ≤ importsEndLine pf) ∨
         pf.tokenFile.Line c.pos = importsEndLine pf + 1) := by
  rw [List.any_eq_true]
  constructor
  · rintro ⟨c, hc, hd⟩
    refine ⟨c, hc, ?_⟩
    simpa [disqualifying, or_assoc] using hd
  · rintro ⟨c, hc, hd⟩
    refine ⟨c, hc, ?_⟩
    simpa [disqualifying, or_assoc] using hd

theorem countLE_mono (a : List Nat) {x y : Nat} (h : x ≤ y) : countLE a x ≤ countLE a y := by
  unfold countLE
  apply List.countP_mono_left
  intro z _ hz
  simp only [decide_eq_true_eq] at hz ⊢
  omega

theorem cntBelow_step (lines : List (List Char)) (s x : Nat) : ∀ n,
    cntBelow lines s n (x + 1) = cntBelow lines s n x +
      (if s < x ∧ blankLine lines x = true ∧ x ≤ n then 1 else 0) := by
  intro n
  induction n with
  | zero =>
    have h0 : ∀ y, cntBelow lines s 0 y = 0 := fun y => cntBelow_zero_of_le _ _ _ _ (Nat.zero_le _)
    rw [h0, h0, if_neg (by omega)]
  | succ n ih =>
    rw [cntBelow_succ, cntBelow_succ, ih]
    by_cases hx : x = n + 1
    · subst hx
      by_cases h1 : s < n + 1 <;> by_cases h2 : blankLine lines (n + 1) = true <;> simp [h1, h2]
    · have e1 : (n + 1 < x + 1) ↔ (n + 1 < x) := by omega
      have e2 : (x ≤ n + 1) ↔ (x ≤ n) := by omega
      simp only [e1, e2]
      omega

theorem cntBelow_gap (lines : List (List Char)) (s n p : Nat) (hp : ¬ (s < p ∧ blankLine lines p = true))
    (hs : s ≤ p) : ∀ d, p + d ≤ n →
      (∀ L, p < L → L < p + 1 + d → blankLine lines L = true) →
      cntBelow lines s n (p + 1 + d) = cntBelow lines s n p + d := by
  intro d
  induction d with
  | zero =>
    intro _ _
    rw [Nat.add_zero, cntBelow_step, if_neg (by tauto)]
  | succ d ih =>
    intro hn hb
    have h1 := ih (by omega) (fun L h1 h2 => hb L h1 (by omega))
    have h2 := cntBelow_step lines s (p + 1 + d) n
    rw [if_pos ⟨by omega, hb _ (by omega) (by omega), by omega⟩] at h2
    have : p + 1 + (d + 1) = p + 1 + d + 1 := by omega
    rw [this, h2, h1]
    omega

theorem getD_le_of_pairwise (l : List Nat) (hl : l.Pairwise (· < ·)) (i j : Nat) (hij : i ≤ j)
    (hj : j < l.length) : l.getD i 0 ≤ l.getD j 0 := by
  rw [List.getD_eq_getElem _ _ hj, List.getD_eq_getElem _ _ (by omega : i < l.length)]
  rcases Nat.lt_or_eq_of_le hij with h | h
  · exact Nat.le_of_lt ((List.pairwise_iff_getElem.1 hl) i j (by omega) hj h)
  · subst h; exact le_rfl

theorem countLE_cons (y : Nat) (ys : List Nat) (x : Nat) :
    countLE (y :: ys) x = countLE ys x + (if y ≤ x then 1 else 0) := by
  unfold countLE
  rw [List.countP_cons]
  by_cases h : y ≤ x <;> simp [h]

theorem countLE_take (a : List Nat) (x : Nat) (hs : a.Pairwise (· < ·)) :
    ∀ k, countLE (a.take k) x = min k (countLE a x) := by
  induction a with
  | nil => intro k; simp [countLE]
  | cons y ys ih =>
    intro k
    rw [List.pairwise_cons] at hs
    cases k with
    | zero => simp [countLE]
    | succ k =>
      rw [List.take_succ_cons, countLE_cons, countLE_cons, ih hs.2 k]
      by_cases hy : y ≤ x
      · rw [if_pos hy]; omega
      · rw [if_neg hy]
        have : countLE ys x = 0 := by
          apply countLE_eq_zero_of_forall_gt
          intro z hz
          have := hs.1 z hz
          omega
        rw [this]; omega

theorem countLE_eq_of_take_eq (a b : List Nat) (x k : Nat) (ha : a.Pairwise (· < ·))
    (hb : b.Pairwise (· < ·)) (h : a.take k = b.take k) (hk : countLE a x < k) :
    countLE b x = countLE a x := by
  have h1 := countLE_take a x ha k
  have h2 := countLE_take b x hb k
  rw [h] at h1
  omega

theorem lineStart_cons_succ (l : List Char) (ls : List (List Char)) (k : Nat) :
    lineStart (l :: ls) (k + 1) = byteLen l + 1 + lineStart ls k := by
  simp [lineStart]

theorem lineStart_zero (lines : List (List Char)) : lineStart lines 0 = 0 := by
  simp [lineStart]

theorem lineStart_succ (lines : List (List Char)) : ∀ k (hk : k < lines.length),
    lineStart lines (k + 1) = lineStart lines k + byteLen lines[k] + 1 := by
  induction lines with
  | nil => intro k hk; simp at hk
  | cons l ls ih =>
    intro k hk
    cases k with
    | zero => simp [lineStart]
    | succ k =>
      rw [lineStart_cons_succ, lineStart_cons_succ, ih k (by simpa using hk)]
      simp only [List.getElem_cons_succ]
      omega

theorem byteLen_eq_lineStart (data : List Char) :
    byteLen data + 1 = lineStart (Split data) (Split data).length := by
  induction data with
  | nil => simp [Split, lineStart, byteLen]
  | cons c cs ih =>
    by_cases hc : c = '\n'
    · subst hc
      have h1 : ('\n' : Char).utf8Size = 1 := by decide
      simp only [Split, if_true, List.length_cons]
      rw [lineStart_cons_succ, ← ih, byteLen_cons, h1]
      simp only [byteLen, List.map_nil, List.sum_nil]
      omega
    · simp only [Split, if_neg hc]
      cases hsp : Split cs with
      | nil => exact absurd hsp (Split_ne_nil cs)
      | cons l ls =>
        rw [hsp] at ih
        simp only [List.length_cons] at ih ⊢
        rw [lineStart_cons_succ] at ih ⊢
        rw [byteLen_cons, byteLen_cons]
        omega

theorem countLE_lineStarts_iff (lines : List (List Char)) : ∀ (off k p : Nat), k < lines.length →
    (countLE (lineStarts lines off) p = k + 1 ↔
      off + lineStart lines k ≤ p ∧ (k + 1 < lines.length → p < off + lineStart lines (k + 1))) := by
  induction lines with
  | nil => intro off k p hk; simp at hk
  | cons l ls ih =>
    intro off k p hk
    simp only [lineStarts]
    rw [countLE_cons]
    by_cases hoff : off ≤ p
    · rw [if_pos hoff]
      cases k with
      | zero =>
        rw [lineStart_zero]
        cases ls with
        | nil => simp [lineStarts, countLE, hoff]
        | cons l2 ls2 =>
          simp only [lineStarts]
          rw [countLE_cons, lineStart_cons_succ, lineStart_zero]
          by_cases h2 : off + byteLen l + 1 ≤ p
          · rw [if_pos h2]
            simp only [List.length_cons]
            constructor
            · intro h; omega
            · intro h; have := h.2 (by omega); omega
          · rw [if_neg h2]
            have : countLE (lineStarts ls2 (off + byteLen l + 1 + byteLen l2 + 1)) p = 0 := by
              apply countLE_eq_zero_of_forall_gt
              intro z hz
              have := lineStarts_ge _ _ z hz
              omega
            rw [this]
            simp only [List.length_cons]
            constructor
            · intro _; exact ⟨by omega, fun _ => by omega⟩
            · intro _; trivial
      | succ k =>
        have hk' : k < ls.length := by simpa using hk
        have := ih (off + byteLen l + 1) k p hk'
        rw [lineStart_cons_succ, lineStart_cons_succ]
        simp only [List.length_cons]
        constructor
        · intro h
          have h' := this.1 (by omega)
          exact ⟨by omega, fun hh => by have := h'.2 (by omega); omega⟩
        · intro h
          have h' := this.2 ⟨by omega, fun hh => by have := h.2 (by omega); omega⟩
          omega
    · rw [if_neg hoff]
      have : countLE (lineStarts ls (off + byteLen l + 1)) p = 0 := by
        apply countLE_eq_zero_of_forall_gt
        intro z hz
        have := lineStarts_ge _ _ z hz
        omega
      rw [this]
      constructor
      · intro h; omega
      · intro h; omega

/-- Offsets of the file with line number `k + 1` are the bytes of text line `k`
and of the line feed that ends it. -/
theorem Line_lineTable_iff (data : List Char) (p k : Nat) (hp : p < byteLen data)
    (hk : k < (Split data).length) :
    countLE (lineTable data) p = k + 1 ↔
      lineStart (Split data) k ≤ p ∧ p ≤ lineStart (Split data) k + byteLen ((Split data)[k]) := by
  rw [countLE_lineTable data p hp, countLE_lineStarts_iff (Split data) 0 k p hk]
  have h1 := lineStart_succ (Split data) k hk
  have h2 := byteLen_eq_lineStart data
  simp only [Nat.zero_add]
  constructor
  · intro h
    refine ⟨h.1, ?_⟩
    by_cases hl : k + 1 < (Split data).length
    · have := h.2 hl; omega
    · have : k + 1 = (Split data).length := by omega
      rw [← this] at h2; omega
  · intro h
    exact ⟨h.1, fun _ => by omega⟩

/-- In a table without `//line` directive, `MergeLine(L)` leaves the line number
of every position on a line up to `L` as it is. -/
theorem MergeLine_keeps_earlier_lines (f f' : File) (L p : Nat) (hinf : f.infos = [])
    (hs : f.lines.Pairwise (· < ·))
    (hm : f.MergeLine L = some f') (hp : f.Line p ≤ L) : f'.Line p = f.Line p := by
  simp only [File.MergeLine] at hm
  split at hm
  · cases hm
  · split at hm
    · cases hm
    · rename_i h1 h2
      cases hm
      have hs' : (f.lines.eraseIdx L).Pairwise (· < ·) := hs.sublist (List.eraseIdx_sublist _ _)
      rw [Line_eq_countLE _ _ hinf hs] at hp ⊢
      rw [Line_eq_countLE { f with lines := f.lines.eraseIdx L } p hinf hs']
      show countLE (f.lines.eraseIdx L) p = countLE f.lines p
      rw [countLE_merge _ _ _ hs (by omega), if_neg (by omega)]

theorem scanLoop_order (lines : List (List Char)) (s : Nat) :
    ∀ (line : Nat) (st st' : ScanState), scanLoop lines s line st = some st' →
      ∃ steps, st'.trace = st.trace ++ steps ∧
        steps.map (fun step => step.line) = (List.range' (s + 1) (line - s)).reverse := by
  intro line
  induction line with
  | zero =>
    intro st st' h
    simp only [scanLoop, Option.some.injEq] at h
    subst h
    exact ⟨[], by simp, by simp⟩
  | succ line ih =>
    intro st st' h
    by_cases hgt : line + 1 > s
    · have hr : (List.range' (s + 1) (line + 1 - s)).reverse =
          (line + 1) :: (List.range' (s + 1) (line - s)).reverse := by
        have : line + 1 - s = (line - s) + 1 := by omega
        rw [this, List.range'_concat, List.reverse_append]
        simp only [List.reverse_cons, List.reverse_nil, List.nil_append, List.singleton_append,
          Nat.one_mul]
        congr 1
        omega
      simp only [scanLoop] at h
      rw [if_pos hgt] at h
      split at h
      · cases h
      · split at h
        · split at h
          · cases h
          · obtain ⟨steps, h1, h2⟩ := ih _ _ h
            refine ⟨⟨line + 1, st.tokenFile.lines, true⟩ :: steps, ?_, ?_⟩
            · rw [h1]; simp
            · rw [List.map_cons, h2, hr]
        · obtain ⟨steps, h1, h2⟩ := ih _ _ h
          refine ⟨⟨line + 1, st.tokenFile.lines, false⟩ :: steps, ?_, ?_⟩
          · rw [h1]; simp
          · rw [List.map_cons, h2, hr]
    · simp only [scanLoop] at h
      rw [if_neg hgt] at h
      cases h
      refine ⟨[], by simp, ?_⟩
      have : line + 1 - s = 0 := by omega
      rw [this]; simp

theorem mem_mergedLines (trace : List Step) (L : Nat) :
    L ∈ mergedLines trace ↔ ∃ step ∈ trace, step.merged = true ∧ step.line = L := by
  simp [mergedLines, and_assoc]

theorem tmp_ne (path : String) : path ++ ".tmp" ≠ path := by
  intro h
  have := congrArg String.length h
  simp [String.length_append] at this
  revert this
  decide

theorem reached_file_iff (path name : String) (regular : Bool) (p : String) (d : Tree) :
    Reached path (.file name regular) p d ↔ p = path ∧ d = .file name regular := by
  constructor
  · intro h; cases h; exact ⟨rfl, rfl⟩
  · rintro ⟨rfl, rfl⟩; exact Reached.root _ _

theorem reached_dir_iff (path name : String) (readErr : Option String) (entries : List Tree)
    (p : String) (t : Tree) :
    Reached path (.dir name readErr entries) p t ↔
      (p = path ∧ t = .dir name readErr entries) ∨
      (name ≠ "vendor" ∧ ∃ d ∈ entries, Reached (Join path d.name) d p t) := by
  constructor
  · intro h
    cases h with
    | root => exact Or.inl ⟨rfl, rfl⟩
    | descend _ _ _ _ d _ _ h1 h2 h3 => exact Or.inr ⟨h1, d, h2, h3⟩
  · rintro (⟨rfl, rfl⟩ | ⟨h1, d, h2, h3⟩)
    · exact Reached.root _ _
    · exact Reached.descend _ _ _ _ d _ _ h1 h2 h3

theorem walkFn_dir {σ : Type} (squashImports : String → σ → Option String × σ)
    (path name : String) (readErr : Option String) (entries : List Tree) (w : σ) :
    walkFn squashImports path (.dir name readErr entries) none w =
      (if name = "vendor" then some .skipDir else none, w) := by
  by_cases h : name = "vendor" <;> simp [walkFn, Tree.isDir, Tree.isRegular, Tree.name, h]

theorem walkFn_err {σ : Type} (squashImports : String → σ → Option String × σ)
    (path : String) (t : Tree) (e : String) (w : σ) :
    walkFn squashImports path t (some e) w = (some (.other e), w) := by
  simp [walkFn]

theorem worldAfter_nil {σ : Type} (f : String → σ → Option String × σ) (w : σ) :
    worldAfter f [] w = w := rfl

theorem worldAfter_cons {σ : Type} (f : String → σ → Option String × σ) (p : String)
    (ps : List String) (w : σ) : worldAfter f (p :: ps) w = worldAfter f ps (f p w).2 := rfl

theorem worldAfter_append {σ : Type} (f : String → σ → Option String × σ)
    (ps qs : List String) (w : σ) :
    worldAfter f (ps ++ qs) w = worldAfter f qs (worldAfter f ps w) := by
  simp [worldAfter, List.foldl_append]

theorem walkFn_file {σ : Type} (squashImports : String → σ → Option String × σ)
    (path name : String) (regular : Bool) (w w' : σ) (r : Option WalkErr)
    (h : walkFn squashImports path (.file name regular) none w = (r, w')) :
    r ≠ some .skipDir ∧
      (r = none → w' = worldAfter squashImports (eligibleFiles path (.file name regular)) w) := by
  simp only [walkFn, Tree.isDir, Tree.isRegular, Tree.name, Bool.false_and, Bool.false_eq_true,
    if_false] at h
  split at h
  · rename_i hskip
    cases h
    refine ⟨by simp, fun _ => ?_⟩
    have : ¬ (regular = true ∧ Ext name = ".go") := by
      rintro ⟨h1, h2⟩
      simp [h1, h2] at hskip
    simp [eligibleFiles, this, worldAfter]
  · rename_i hskip
    have hel : regular = true ∧ Ext name = ".go" := by
      simp only [Bool.or_eq_true, Bool.not_eq_true', decide_eq_true_eq, not_or,
        Bool.not_eq_false, not_not] at hskip
      exact hskip
    split at h
    · cases h; exact ⟨by simp, by simp⟩
    · rename_i w1 hsq
      cases h
      refine ⟨by simp, fun _ => ?_⟩
      simp [eligibleFiles, hel, worldAfter, hsq]

mutual
theorem walkDir_spec {σ : Type} (squashImports : String → σ → Option String × σ)
    (path : String) (t : Tree) (w w' : σ) (r : Option WalkErr)
    (h : walkDir (walkFn squashImports) path t w = (r, w')) :
    r ≠ some .skipDir ∧ (r = none → w' = worldAfter squashImports (eligibleFiles path t) w) := by
  cases t with
  | file name regular =>
    simp only [walkDir] at h
    exact walkFn_file squashImports path name regular w w' r h
  | dir name readErr entries =>
    simp only [walkDir, walkFn_dir] at h
    by_cases hv : name = "vendor"
    · simp only [hv, if_true] at h
      cases h
      exact ⟨by simp, fun _ => by simp [eligibleFiles, worldAfter, hv]⟩
    · simp only [hv, if_false] at h
      cases readErr with
      | some e =>
        simp only [walkFn_err] at h
        cases h
        exact ⟨by simp, by simp⟩
      | none =>
        simp only at h
        obtain ⟨h1, h2⟩ := walkEntries_spec squashImports path entries _ w' r h
        refine ⟨h1, fun hr => ?_⟩
        rw [h2 hr]
        simp [eligibleFiles, hv]
theorem walkEntries_spec {σ : Type} (squashImports : String → σ → Option String × σ)
    (path : String) (ts : List Tree) (w w' : σ) (r : Option WalkErr)
    (h : walkEntries (walkFn squashImports) path ts w = (r, w')) :
    r ≠ some .skipDir ∧
      (r = none → w' = worldAfter squashImports (eligibleEntries path ts) w) := by
  cases ts with
  | nil =>
    simp only [walkEntries] at h
    cases h
    exact ⟨by simp, fun _ => by simp [eligibleEntries, worldAfter]⟩
  | cons d1 rest =>
    simp only [walkEntries] at h
    cases hd : walkDir (walkFn squashImports) (Join path d1.name) d1 w with
    | mk r1 w1 =>
      obtain ⟨h1, h2⟩ := walkDir_spec squashImports (Join path d1.name) d1 w w1 r1 hd
      rw [hd] at h
      cases r1 with
      | some e1 =>
        cases e1 with
        | skipDir => exact absurd rfl h1
        | other e =>
          simp only at h
          cases h
          exact ⟨by simp, by simp⟩
      | none =>
        simp only at h
        obtain ⟨h3, h4⟩ := walkEntries_spec squashImports path rest w1 w' r h
        refine ⟨h3, fun hr => ?_⟩
        rw [h4 hr, h2 rfl]
        simp only [eligibleEntries]
        rw [worldAfter_append]
end

mutual
theorem mem_eligibleFiles (path : String) (t : Tree) (p : String) :
    p ∈ eligibleFiles path t ↔ Eligible path t p := by
  cases t with
  | file name regular =>
    simp only [eligibleFiles, Eligible, reached_file_iff]
    constructor
    · intro h
      split at h
      · rename_i hel
        simp only [List.mem_singleton] at h
        exact ⟨name, ⟨h, by rw [hel.1]⟩, hel.2⟩
      · simp at h
    · rintro ⟨name', ⟨hp, hd⟩, hext⟩
      cases hd
      simp [hext, hp]
  | dir name readErr entries =>
    simp only [eligibleFiles, Eligible, reached_dir_iff]
    by_cases hv : name = "vendor"
    · simp [hv]
    · simp only [hv, if_false, mem_eligibleEntries, Eligible]
      constructor
      · rintro ⟨d, hd, nm, hreach, hext⟩
        exact ⟨nm, Or.inr ⟨hv, d, hd, hreach⟩, hext⟩
      · rintro ⟨nm, (⟨_, hd⟩ | ⟨_, d, hd, hreach⟩), hext⟩
        · cases hd
        · exact ⟨d, hd, nm, hreach, hext⟩
theorem mem_eligibleEntries (path : String) (ts : List Tree) (p : String) :
    p ∈ eligibleEntries path ts ↔ ∃ d ∈ ts, Eligible (Join path d.name) d p := by
  cases ts with
  | nil => simp [eligibleEntries]
  | cons d1 rest =>
    simp only [eligibleEntries, List.mem_append, mem_eligibleFiles, mem_eligibleEntries,
      List.mem_cons]
    constructor
    · rintro (h | ⟨d, hd, h⟩)
      · exact ⟨d1, Or.inl rfl, h⟩
      · exact ⟨d, Or.inr hd, h⟩
    · rintro ⟨d, (rfl | hd), h⟩
      · exact Or.inl h
      · exact Or.inr ⟨d, hd, h⟩
end

/-- The loop of `filepath.Clean` never runs out of iterations: with a bound of
at least the number of bytes left, the result does not depend on the bound. -/
theorem cleanLoop_fuel (rooted : Bool) : ∀ (n fuel : Nat) (rest out : List Char) (dotdot : Nat),
    rest.length ≤ n → n ≤ fuel →
    cleanLoop rooted fuel rest out dotdot = cleanLoop rooted n rest out dotdot := by
  intro n
  induction n with
  | zero =>
    intro fuel rest out dotdot hr _
    have : rest = [] := List.length_eq_zero.1 (by omega)
    subst this
    cases fuel <;> simp [cleanLoop]
  | succ n ih =>
    intro fuel rest out dotdot hr hf
    cases fuel with
    | zero => omega
    | succ f =>
      cases rest with
      | nil => simp [cleanLoop]
      | cons c r =>
        have hrl : r.length ≤ n := by simpa using hr
        have htl : r.tail.length ≤ n := by
          have := List.length_tail r
          omega
        have hdw : ((c :: r).dropWhile (fun x => decide (x ≠ '/'))).length ≤ n ∨ c = '/' := by
          by_cases hc : c = '/'
          · exact Or.inr hc
          · left
            rw [List.dropWhile_cons_of_pos (by simpa using hc)]
            have hsub : (r.dropWhile (fun x => decide (x ≠ '/'))).Sublist r :=
              List.dropWhile_sublist _
            have := hsub.length_le
            omega
        simp only [cleanLoop]
        split
        · exact ih f r out dotdot hrl (by omega)
        · rename_i hc
          rcases hdw with hdw | hdw
          · split
            · exact ih f r out dotdot hrl (by omega)
            · split
              · split
                · exact ih f _ _ _ htl (by omega)
                · split
                  · exact ih f _ _ _ htl (by omega)
                  · exact ih f _ _ _ htl (by omega)
              · exact ih f _ _ _ hdw (by omega)
          · exact absurd hdw hc

/-- Results of `filepath.Clean` and `filepath.Join` on sample paths. -/
theorem Clean_samples :
    Clean "" = "." ∧ Clean "abc//def//ghi" = "abc/def/ghi" ∧ Clean "/./abc/def/" = "/abc/def" ∧
    Clean "abc/def/../../.." = ".." ∧ Clean "/../abc" = "/abc" ∧
    Clean "abc/../../././../def" = "../../def" ∧
    Join "." "a.go" = "a.go" ∧ Join "src/" "a.go" = "src/a.go" ∧ Join "" "a.go" = "a.go" := by
  decide


theorem tmp_ne_empty (path : String) : path ++ ".tmp" ≠ "" := by
  intro h
  have := congrArg String.length h
  simp [String.length_append] at this
  exact absurd this.2 (by decide)

theorem FS.set_same (fs : FS) (path : String) (node : Option FileNode) :
    (fs.set path node) path = node := by
  simp [FS.set]

theorem FS.set_other (fs : FS) (path q : String) (node : Option FileNode) (h : q ≠ path) :
    (fs.set path node) q = fs q := by
  simp [FS.set, h]

theorem twoImports_wellFormed : WellFormed twoImports :=
  ⟨by decide, by decide, by decide, by decide, by decide, by decide⟩

theorem fourImports_wellFormed : WellFormed fourImports :=
  ⟨by decide, by decide, by decide, by decide, by decide, by decide⟩

theorem lineComment_wellFormed : WellFormed lineComment :=
  ⟨by decide, by decide, by decide, by decide, by decide, by decide⟩

theorem blockComment_wellFormed : WellFormed blockComment :=
  ⟨by decide, by decide, by decide, by decide, by decide, by decide⟩

theorem shiftedUp_wellFormed : WellFormed shiftedUp :=
  ⟨by decide, by decide, by decide, by decide, by decide, by decide⟩

theorem restartAtOne_wellFormed : WellFormed restartAtOne :=
  ⟨by decide, by decide, by decide, by decide, by decide, by decide⟩

theorem beforeVar_wellFormed : WellFormed beforeVar :=
  ⟨by decide, by decide, by decide, by decide, by decide, by decide⟩


/-- A file without `//line` directive reaches `rewriteFile` if and only if some
line strictly between the first and the last import line is blank and no
comment is disqualifying; otherwise `squashImports` returns nil and leaves the
file alone. -/
theorem rewrites_iff_without_directive (pf : ParsedFile) (hwf : WellFormed pf)
    (hinf : pf.tokenFile.infos = []) :
    ((∃ st, squashImports (.ok pf) = .rewrite st) ↔
      ((∃ L, importsStartLine pf < L ∧ L < importsEndLine pf ∧
          blankLine (Split pf.data) L = true) ∧
       (∀ c ∈ pf.comments,
          ¬ ((pf.tokenFile.Line c.endPos : Int) = (importsStartLine pf : Int) - 1 ∨
             (importsStartLine pf ≤ pf.tokenFile.Line c.pos ∧
               pf.tokenFile.Line c.pos ≤ importsEndLine pf) ∨
             pf.tokenFile.Line c.pos = importsEndLine pf + 1)))) ∧
    ((¬ ∃ st, squashImports (.ok pf) = .rewrite st) → squashImports (.ok pf) = .untouched) ∧
    (pf.imports.length ≤ 1 → squashImports (.ok pf) = .untouched) ∧
    ((∀ L, importsStartLine pf < L → L < importsEndLine pf →
        blankLine (Split pf.data) L = false) → squashImports (.ok pf) = .untouched) := by
  obtain ⟨st, hrun, _, _, _, hch, _, _⟩ := scan_spec pf hinf hwf.sorted hwf.length_le
  have hchanged : st.changed = true ↔ ∃ L, importsStartLine pf < L ∧ L < importsEndLine pf ∧
      blankLine (Split pf.data) L = true := by
    rw [hch, List.any_eq_true]
    constructor
    · rintro ⟨L, hL, h⟩
      simp only [Bool.and_eq_true, decide_eq_true_eq] at h
      exact ⟨L, h.1, List.mem_range.1 hL, h.2⟩
    · rintro ⟨L, h1, h2, h3⟩
      exact ⟨L, List.mem_range.2 h2, by simp [h1, h3]⟩
  have hguard := any_disqualifying_iff pf
  by_cases hlen : pf.imports.length ≤ 1
  · have hres : squashImports (.ok pf) = .untouched := by simp [squashImports, hlen]
    have hse := imports_start_eq_end pf hlen
    refine ⟨?_, fun _ => hres, fun _ => hres, fun _ => hres⟩
    rw [hres]
    constructor
    · rintro ⟨st', h⟩; cases h
    · rintro ⟨⟨L, h1, h2, _⟩, _⟩; omega
  · by_cases hg : pf.comments.any
        (disqualifying pf.tokenFile (importsStartLine pf) (importsEndLine pf)) = true
    · have hres : squashImports (.ok pf) = .untouched := by simp [squashImports, hlen, hg]
      refine ⟨?_, fun _ => hres, fun _ => hres, fun _ => hres⟩
      rw [hres]
      constructor
      · rintro ⟨st', h⟩; cases h
      · rintro ⟨_, h⟩
        obtain ⟨c, hc, hd⟩ := hguard.1 hg
        exact absurd hd (h c hc)
    · have hnone : ∀ c ∈ pf.comments,
          ¬ ((pf.tokenFile.Line c.endPos : Int) = (importsStartLine pf : Int) - 1 ∨
             (importsStartLine pf ≤ pf.tokenFile.Line c.pos ∧
               pf.tokenFile.Line c.pos ≤ importsEndLine pf) ∨
             pf.tokenFile.Line c.pos = importsEndLine pf + 1) := by
        intro c hc hd
        exact hg (hguard.2 ⟨c, hc, hd⟩)
      by_cases hc : st.changed = true
      · have hres : squashImports (.ok pf) = .rewrite st := by
          simp [squashImports, hlen, hg, hrun, hc]
        refine ⟨?_, ?_, fun h => absurd h hlen, ?_⟩
        · constructor
          · intro _; exact ⟨hchanged.1 hc, hnone⟩
          · intro _; exact ⟨st, hres⟩
        · intro h; exact absurd ⟨st, hres⟩ h
        · intro h
          obtain ⟨L, h1, h2, h3⟩ := hchanged.1 hc
          rw [h L h1 h2] at h3; cases h3
      · have hres : squashImports (.ok pf) = .untouched := by
          simp [squashImports, hlen, hg, hrun, hc]
        refine ⟨?_, fun _ => hres, fun _ => hres, fun _ => hres⟩
        rw [hres]
        constructor
        · rintro ⟨st', h⟩; cases h
        · rintro ⟨h, _⟩; exact absurd (hchanged.2 h) hc


/-- In a file without `//line` directive that passes the comment guard, two
consecutive import entries with only blank lines between them, at least one,
stand on adjacent lines of the table handed to `rewriteFile`. -/
theorem adjacent_without_directive (pf : ParsedFile) (hwf : WellFormed pf)
    (hinf : pf.tokenFile.infos = [])
    (hguard : pf.comments.any
      (disqualifying pf.tokenFile (importsStartLine pf) (importsEndLine pf)) = false)
    (i a b : Nat) (ha : pf.imports[i]? = some a) (hb : pf.imports[i + 1]? = some b)
    (hgap : pf.tokenFile.Line a + 1 < pf.tokenFile.Line b)
    (hblank : ∀ L, pf.tokenFile.Line a < L → L < pf.tokenFile.Line b →
      blankLine (Split pf.data) L = true) :
    ∃ st, squashImports (.ok pf) = .rewrite st ∧
      st.tokenFile.Line b = st.tokenFile.Line a + 1 := by
  obtain ⟨hi, hai⟩ := List.getElem?_eq_some.1 ha
  obtain ⟨hi1, hbi⟩ := List.getElem?_eq_some.1 hb
  have hs := hwf.sorted
  obtain ⟨st, hrun, _, hsorted, hline, hch, _, _⟩ := scan_spec pf hinf hs hwf.length_le
  -- the lines of the two entries lie between the first and the last import line
  have hsp : importsStartLine pf ≤ pf.tokenFile.Line a := by
    unfold importsStartLine
    rw [Line_eq_countLE _ _ hinf hs, Line_eq_countLE _ _ hinf hs]
    apply countLE_mono
    have := getD_le_of_pairwise pf.imports hwf.ordered 0 i (Nat.zero_le _) hi
    rwa [List.getD_eq_getElem _ _ hi, hai] at this
  have hqe : pf.tokenFile.Line b ≤ importsEndLine pf := by
    unfold importsEndLine
    rw [Line_eq_countLE _ _ hinf hs, Line_eq_countLE _ _ hinf hs]
    apply countLE_mono
    have := getD_le_of_pairwise pf.imports hwf.ordered (i + 1) (pf.imports.length - 1)
      (by omega) (by omega)
    rwa [List.getD_eq_getElem _ _ hi1, hbi] at this
  have hnb : blankLine (Split pf.data) (pf.tokenFile.Line a) = false := by
    rw [Line_eq_PositionFor _ _ hinf]
    exact hwf.onText a (by rw [← hai]; exact List.getElem_mem _)
  -- the scan sets `changed`
  have hc : st.changed = true := by
    rw [hch, List.any_eq_true]
    refine ⟨pf.tokenFile.Line a + 1, List.mem_range.2 (by omega), ?_⟩
    simp only [Bool.and_eq_true, decide_eq_true_eq]
    exact ⟨by omega, hblank _ (by omega) hgap⟩
  refine ⟨st, ?_, ?_⟩
  · have hlen : ¬ pf.imports.length ≤ 1 := by omega
    simp [squashImports, hlen, hguard, hrun, hc]
  · have h1 := hline a
    have h2 := hline b
    have hd : pf.tokenFile.Line b =
        pf.tokenFile.Line a + 1 + (pf.tokenFile.Line b - pf.tokenFile.Line a - 1) := by omega
    have h3 := cntBelow_gap (Split pf.data) (importsStartLine pf) (importsEndLine pf - 1)
      (pf.tokenFile.Line a) (by rw [hnb]; simp) hsp
      (pf.tokenFile.Line b - pf.tokenFile.Line a - 1) (by omega)
      (fun L h1 h2 => hblank L h1 (by omega))
    rw [← hd] at h3
    omega


/-- In a table without `//line` directive a `MergeLine` at line `L` keeps the
line number of every position on a line up to `L`; and the scan of a file
without directive examines, at every iteration, a line number `L` that in the
table as mutated so far covers exactly the bytes of the text line
`lines[L-1]`. -/
theorem examines_original_lines_without_directive (pf : ParsedFile) (hwf : WellFormed pf)
    (hinf : pf.tokenFile.infos = []) :
    (∀ (f f' : File) (L p : Nat), f.infos = [] → f.lines.Pairwise (· < ·) →
        f.MergeLine L = some f' → f.Line p ≤ L → f'.Line p = f.Line p) ∧
    ∃ st, scan pf = some st ∧
      st.trace.map (fun step => step.line) =
        (List.range' (importsStartLine pf + 1)
          (importsEndLine pf - 1 - importsStartLine pf)).reverse ∧
      ∀ step ∈ st.trace, ∀ p, p < byteLen pf.data →
        ((File.mk pf.tokenFile.size step.table []).Line p = step.line ↔
          lineStart (Split pf.data) (step.line - 1) ≤ p ∧
          p ≤ lineStart (Split pf.data) (step.line - 1) +
            byteLen ((Split pf.data).getD (step.line - 1) [])) := by
  refine ⟨fun f f' L p hi hs hm hp => MergeLine_keeps_earlier_lines f f' L p hi hs hm hp, ?_⟩
  obtain ⟨st, hrun, _, _, _, _, hsteps, _⟩ := scan_spec pf hinf hwf.sorted hwf.length_le
  refine ⟨st, hrun, ?_, ?_⟩
  · obtain ⟨steps, h1, h2⟩ := scanLoop_order _ _ _ _ _ hrun
    simp only [List.nil_append] at h1
    rw [h1, h2]
  · intro step hstep p hp
    obtain ⟨h1, _, _, h4, h5, _, h7⟩ := hsteps step hstep
    have hs := hwf.sorted
    rw [Line_eq_countLE _ _ rfl h5]
    show countLE step.table p = step.line ↔ _
    have hiff : countLE step.table p = step.line ↔ countLE pf.tokenFile.lines p = step.line := by
      constructor
      · intro h
        rw [countLE_eq_of_take_eq step.table pf.tokenFile.lines p (step.line + 1) h5 hs h4
          (by omega)]
        exact h
      · intro h
        rw [countLE_eq_of_take_eq pf.tokenFile.lines step.table p (step.line + 1) hs h5 h4.symm
          (by omega)]
        exact h
    rw [hiff, hwf.table, List.getD_eq_getElem _ _ h7]
    have := Line_lineTable_iff pf.data p (step.line - 1) hp h7
    have hL : step.line - 1 + 1 = step.line := by omega
    rw [hL] at this
    exact this



/-! ## The properties of the specification -/

/-- C1, evaluated on a file that shows the defect.  `shiftedUp` starts with the
directive `//line x.go:4`, so `tokenFile.Line` reports the import entries of
text lines 3 and 6 on lines 5 and 8.  Both conditions of the claim hold, with
the line numbers of the code (line 7 is blank: `lines[6]` is the empty text
after the last line feed) as with the lines of the text (lines 4 and 5 are
blank), and no comment is disqualifying; yet the file is not handed to
`rewriteFile`: the scan calls `MergeLine(7)` on a table of six lines, which
panics. -/
theorem squashImports_panics_on_line_directive :
    WellFormed shiftedUp ∧
    shiftedUp.imports = [34, 47] ∧
    importsStartLine shiftedUp = 5 ∧ importsEndLine shiftedUp = 8 ∧
    blankLine (Split shiftedUp.data) 7 = true ∧
    shiftedUp.tokenFile.PositionFor 34 false = 3 ∧
    shiftedUp.tokenFile.PositionFor 47 false = 6 ∧
    blankLine (Split shiftedUp.data) 4 = true ∧
    (∀ c ∈ shiftedUp.comments,
      ¬ ((shiftedUp.tokenFile.Line c.endPos : Int) = (importsStartLine shiftedUp : Int) - 1 ∨
         (importsStartLine shiftedUp ≤ shiftedUp.tokenFile.Line c.pos ∧
           shiftedUp.tokenFile.Line c.pos ≤ importsEndLine shiftedUp) ∨
         shiftedUp.tokenFile.Line c.pos = importsEndLine shiftedUp + 1)) ∧
    shiftedUp.tokenFile.lines.length = 6 ∧
    shiftedUp.tokenFile.MergeLine 7 = none ∧
    scan shiftedUp = none ∧
    squashImports (.ok shiftedUp) = .panic :=
  ⟨shiftedUp_wellFormed, by decide, by decide, by decide, by decide, by decide, by decide,
    by decide, by decide, by decide, by decide, by decide, by decide⟩

/-- C2, evaluated on a file that shows the defect.  The block comment of
`blockComment` starts on line `importsStartLine - 1` and ends on line
`importsStartLine`, so it occupies lines of the range
`[importsStartLine - 1, importsEndLine + 1]`; nevertheless the comment loop lets
the file pass, `MergeLine` is called on the blank line 5 and the file is handed
to `rewriteFile`. -/
theorem comment_guard_misses_block_comment :
    WellFormed blockComment ∧
    blockComment.comments = [⟨23, 30⟩] ∧
    blockComment.tokenFile.Line 23 = importsStartLine blockComment - 1 ∧
    blockComment.tokenFile.Line 30 = importsStartLine blockComment ∧
    blankLine (Split blockComment.data) 5 = true ∧
    (squashImports (.ok blockComment)).mergeCalls = [5] ∧
    squashImports (.ok blockComment) =
      .rewrite ⟨⟨43, [0, 13, 14, 28, 35, 41], []⟩, true,
        [⟨5, [0, 13, 14, 28, 35, 36, 41], true⟩]⟩ :=
  ⟨blockComment_wellFormed, by decide, by decide, by decide, by decide, by decide, by decide⟩

/-- C3, evaluated on a file that shows the defect.  In `restartAtOne` the
directive `//line x.go:1` stands above the import entries, which are on text
lines 6 and 8 with the blank text line 7 between them; `tokenFile.Line` reports
them on lines 1 and 3, and text line 2 is blank too, so the entries are two
consecutive entries with one blank line between them whichever way the lines
are counted.  The file passes the comment guard; the scan examines line 2,
calls `MergeLine(2)`, which joins the text lines 2 and 3 above the directive,
and hands the file to `rewriteFile` with a table in which the second entry is
still two lines after the first. -/
theorem blank_line_survives_line_directive :
    WellFormed restartAtOne ∧
    restartAtOne.imports = [37, 49] ∧
    restartAtOne.comments.any (disqualifying restartAtOne.tokenFile
      (importsStartLine restartAtOne) (importsEndLine restartAtOne)) = false ∧
    restartAtOne.tokenFile.PositionFor 37 false = 6 ∧
    restartAtOne.tokenFile.PositionFor 49 false = 8 ∧
    blankLine (Split restartAtOne.data) 7 = true ∧
    restartAtOne.tokenFile.Line 37 = 1 ∧ restartAtOne.tokenFile.Line 49 = 3 ∧
    blankLine (Split restartAtOne.data) 2 = true ∧
    squashImports (.ok restartAtOne) =
      .rewrite ⟨⟨53, [0, 13, 15, 16, 30, 41, 42], [⟨30, 1⟩]⟩, true,
        [⟨2, [0, 13, 14, 15, 16, 30, 41, 42], true⟩]⟩ ∧
    (File.mk 53 [0, 13, 15, 16, 30, 41, 42] [⟨30, 1⟩]).Line 37 = 1 ∧
    (File.mk 53 [0, 13, 15, 16, 30, 41, 42] [⟨30, 1⟩]).Line 49 = 3 ∧
    (File.mk 53 [0, 13, 15, 16, 30, 41, 42] [⟨30, 1⟩]).PositionFor 37 false = 5 ∧
    (File.mk 53 [0, 13, 15, 16, 30, 41, 42] [⟨30, 1⟩]).PositionFor 49 false = 7 :=
  ⟨restartAtOne_wellFormed, by decide, by decide, by decide, by decide, by decide, by decide,
    by decide, by decide, by decide, by decide, by decide, by decide, by decide⟩

/-- C4, evaluated on a file that shows the defect.  In `beforeVar` the directive
`//line x.go:6` makes `tokenFile.Line` report the import entries of text lines
4 and 6 on lines 6 and 8.  The first run examines line 7, finds `lines[6]`
blank (the text line between `import "b"` and `var x int`), calls
`MergeLine(7)` and hands the file to `rewriteFile`.  The table it hands over
still has the blank text line 5 between the two entries; what it has lost is
the line between the import block and `var x int` (moved from line 8 to
line 7).  The result of the run is therefore not the file without its blank
interior line. -/
theorem rewrite_keeps_blank_line_between_imports :
    WellFormed beforeVar ∧
    beforeVar.imports = [35, 47] ∧
    importsStartLine beforeVar = 6 ∧ importsEndLine beforeVar = 8 ∧
    beforeVar.tokenFile.PositionFor 35 false = 4 ∧
    beforeVar.tokenFile.PositionFor 47 false = 6 ∧
    beforeVar.tokenFile.PositionFor 52 false = 8 ∧
    blankLine (Split beforeVar.data) 5 = true ∧
    blankLine (Split beforeVar.data) 7 = true ∧
    (squashImports (.ok beforeVar)).mergeCalls = [7] ∧
    squashImports (.ok beforeVar) =
      .rewrite ⟨⟨62, [0, 13, 14, 28, 39, 40, 51], [⟨28, 6⟩]⟩, true,
        [⟨7, [0, 13, 14, 28, 39, 40, 51, 52], true⟩]⟩ ∧
    (File.mk 62 [0, 13, 14, 28, 39, 40, 51] [⟨28, 6⟩]).PositionFor 35 false = 4 ∧
    (File.mk 62 [0, 13, 14, 28, 39, 40, 51] [⟨28, 6⟩]).PositionFor 47 false = 6 ∧
    (File.mk 62 [0, 13, 14, 28, 39, 40, 51] [⟨28, 6⟩]).PositionFor 52 false = 7 ∧
    (File.mk 62 [0, 13, 14, 28, 39, 40, 51] [⟨28, 6⟩]).Line 35 = 6 ∧
    (File.mk 62 [0, 13, 14, 28, 39, 40, 51] [⟨28, 6⟩]).Line 47 = 8 :=
  ⟨beforeVar_wellFormed, by decide, by decide, by decide, by decide, by decide, by decide,
    by decide, by decide, by decide, by decide, by decide, by decide, by decide, by decide,
    by decide⟩

/-- C5, amended.  When `os.Stat` and `os.OpenFile` succeed and `format.Node`,
`Flush` or `os.Rename` fails, `rewriteFile` returns an error, the original path
holds what it held before, and the removal of the temporary file is attempted:
the temporary file is gone when `os.Remove` succeeds.  When all the steps up to
the rename succeed, no removal is attempted, the temporary path is empty and the
original path holds the serialised text. -/
theorem rewriteFile_atomic (env : Env) (formatted path : String) (fs : FS) (info : FileNode)
    (hfile : fs path = some info) (hstat : env.stat = none) (hopen : env.openFile = none) :
    ((env.formatNode ≠ none ∨ env.flush ≠ none ∨ env.rename ≠ none) →
      (rewriteFile env formatted path fs).retErr ≠ none ∧
      (rewriteFile env formatted path fs).fs path = fs path ∧
      Op.remove ∈ (rewriteFile env formatted path fs).ops ∧
      (env.remove = none → (rewriteFile env formatted path fs).fs (path ++ ".tmp") = none)) ∧
    ((env.formatNode = none ∧ env.flush = none ∧ env.rename = none) →
      Op.remove ∉ (rewriteFile env formatted path fs).ops ∧
      (∃ perm, (rewriteFile env formatted path fs).fs path = some ⟨formatted, perm⟩) ∧
      (rewriteFile env formatted path fs).fs (path ++ ".tmp") = none) := by
  have hne := tmp_ne path
  have hne' := tmp_ne_empty path
  have hne2 : path ≠ path ++ ".tmp" := fun h => hne h.symm
  constructor
  · intro hfail
    cases hf : env.formatNode with
    | some e1 =>
      cases hr : env.remove with
      | some e2 =>
        simp [rewriteFile, deferred, hfile, hstat, hopen, hf, hr, hne', FS.set, hne2]
      | none =>
        simp [rewriteFile, deferred, hfile, hstat, hopen, hf, hr, hne', FS.set, hne2]
    | none =>
      cases hfl : env.flush with
      | some e1 =>
        cases hr : env.remove with
        | some e2 =>
          simp [rewriteFile, deferred, hfile, hstat, hopen, hf, hfl, hr, hne', FS.set, hne2]
        | none =>
          simp [rewriteFile, deferred, hfile, hstat, hopen, hf, hfl, hr, hne', FS.set, hne2]
      | none =>
        cases hrn : env.rename with
        | some e1 =>
          cases hr : env.remove with
          | some e2 =>
            simp [rewriteFile, deferred, hfile, hstat, hopen, hf, hfl, hrn, hr, hne', FS.set, hne2]
          | none =>
            simp [rewriteFile, deferred, hfile, hstat, hopen, hf, hfl, hrn, hr, hne', FS.set, hne2]
        | none =>
          rw [hf, hfl, hrn] at hfail
          simp at hfail
  · rintro ⟨hf, hfl, hrn⟩
    simp [rewriteFile, deferred, hfile, hstat, hopen, hf, hfl, hrn, FS.set, hne2]

theorem rewriteFile_atomic_witness :
    oneGoFile "a.go" = some ⟨"old", 420⟩ ∧ renameFails.stat = none ∧
    renameFails.openFile = none ∧ renameFails.rename ≠ none ∧ renameFails.remove = none ∧
    (rewriteFile renameFails "new" "a.go" oneGoFile).retErr ≠ none ∧
    (rewriteFile renameFails "new" "a.go" oneGoFile).fs "a.go" = oneGoFile "a.go" ∧
    (rewriteFile renameFails "new" "a.go" oneGoFile).fs ("a.go" ++ ".tmp") = none :=
  ⟨by decide, by decide, by decide, by decide, by decide,
    ((rewriteFile_atomic renameFails "new" "a.go" oneGoFile ⟨"old", 420⟩ (by decide) (by decide)
      (by decide)).1 (by decide)).1,
    ((rewriteFile_atomic renameFails "new" "a.go" oneGoFile ⟨"old", 420⟩ (by decide) (by decide)
      (by decide)).1 (by decide)).2.1,
    ((rewriteFile_atomic renameFails "new" "a.go" oneGoFile ⟨"old", 420⟩ (by decide) (by decide)
      (by decide)).1 (by decide)).2.2.2 (by decide)⟩

/-- C5 as stated fails: `format.Node` fails after the temporary file was
created, the deferred `os.Remove` fails as well, and the temporary file is
still there when `rewriteFile` returns the error of `format.Node`. -/
theorem temporary_file_survives_failed_removal :
    oneGoFile "a.go" = some ⟨"old", 420⟩ ∧
    formatAndRemoveFail.stat = none ∧ formatAndRemoveFail.openFile = none ∧
    formatAndRemoveFail.formatNode ≠ none ∧
    (rewriteFile formatAndRemoveFail "new" "a.go" oneGoFile).retErr =
      some "no space left on device" ∧
    (rewriteFile formatAndRemoveFail "new" "a.go" oneGoFile).fs ("a.go" ++ ".tmp") ≠ none := by
  decide

/-- C7. `run` processes the paths in the given order, each call of `processPath`
starting from the world that the calls on the paths before it left.  It returns
nil if and only if every one of these calls returns nil, and the world is then
the one left by the calls on all the paths.  When the call on a path is the
first to return an error, `run` returns exactly that error and leaves the world
as that call left it: no later path is processed. -/
theorem run_stops_at_first_error {σ : Type} (processPath : String → σ → Option String × σ)
    (paths : List String) (w : σ) :
    ((run processPath paths w).1 = none ↔
      ∀ i p, paths[i]? = some p →
        (processPath p (worldAfter processPath (paths.take i) w)).1 = none) ∧
    ((run processPath paths w).1 = none →
      (run processPath paths w).2 = worldAfter processPath paths w) ∧
    (∀ i p e, paths[i]? = some p →
      (∀ j q, j < i → paths[j]? = some q →
        (processPath q (worldAfter processPath (paths.take j) w)).1 = none) →
      (processPath p (worldAfter processPath (paths.take i) w)).1 = some e →
      run processPath paths w =
        (some e, (processPath p (worldAfter processPath (paths.take i) w)).2)) := by
  induction paths generalizing w with
  | nil => simp [run, worldAfter]
  | cons path paths ih =>
    obtain ⟨ih1, ih2, ih3⟩ := ih (processPath path w).2
    cases h : processPath path w with
    | mk r w' =>
      rw [h] at ih1 ih2 ih3
      cases r with
      | some err =>
        refine ⟨?_, ?_, ?_⟩
        · simp only [run, h]
          constructor
          · intro hn; cases hn
          · intro hall
            have := hall 0 path (by simp)
            simp [worldAfter, h] at this
        · simp [run, h]
        · intro i p e hp hpre he
          cases i with
          | zero =>
            simp only [List.getElem?_cons_zero, Option.some.injEq] at hp
            subst hp
            simp only [List.take_zero, worldAfter_nil, h] at he ⊢
            simp only [Option.some.injEq] at he
            subst he
            simp [run, h]
          | succ i =>
            have := hpre 0 path (by omega) (by simp)
            simp [worldAfter, h] at this
      | none =>
        refine ⟨?_, ?_, ?_⟩
        · simp only [run, h]
          rw [ih1]
          constructor
          · intro hall i p hp
            cases i with
            | zero =>
              simp only [List.getElem?_cons_zero, Option.some.injEq] at hp
              subst hp
              simp [worldAfter, h]
            | succ i =>
              simp only [List.getElem?_cons_succ] at hp
              simp only [List.take_succ_cons, worldAfter_cons, h]
              exact hall i p hp
          · intro hall i p hp
            have := hall (i + 1) p (by simpa using hp)
            simpa only [List.take_succ_cons, worldAfter_cons, h] using this
        · simp only [run, h, worldAfter_cons]
          exact ih2
        · intro i p e hp hpre he
          cases i with
          | zero =>
            simp only [List.getElem?_cons_zero, Option.some.injEq] at hp
            subst hp
            simp [worldAfter, h] at he
          | succ i =>
            simp only [List.getElem?_cons_succ] at hp
            simp only [List.take_succ_cons, worldAfter_cons, h] at he ⊢
            simp only [run, h]
            refine ih3 i p e hp ?_ he
            intro j q hj hq
            have := hpre (j + 1) q (by omega) (by simpa using hq)
            simpa only [List.take_succ_cons, worldAfter_cons, h] using this

theorem run_stops_at_first_error_witness :
    (recordPath "a" []).1 = none ∧
    (recordPath "bad" ["a"]).1 = some "bad: not a Go file" ∧
    run recordPath ["a", "bad", "c"] [] = (some "bad: not a Go file", ["a", "bad"]) :=
  ⟨by decide, by decide,
    ((run_stops_at_first_error recordPath ["a", "bad", "c"] []).2.2 1 "bad"
      "bad: not a Go file" (by decide)
      (by
        intro j q hj hq
        have hj0 : j = 0 := by omega
        subst hj0
        simp only [List.getElem?_cons_zero, Option.some.injEq] at hq
        subst hq
        decide)
      (by decide)).trans (by decide)⟩

/-- C9, amended.  For every file without `//line` directive that reaches the
scan (more than one import entry, no disqualifying comment), the lines on which
`MergeLine` is called are exactly the blank lines `L` with
`importsStartLine < L < importsEndLine`; after the scan every position on a line
up to `importsStartLine` has its original line number, and every position on a
line from `importsEndLine` on has its line number decreased by the number of
blank interior lines. -/
theorem scan_frame (pf : ParsedFile) (hwf : WellFormed pf) (hinf : pf.tokenFile.infos = [])
    (hlen : 1 < pf.imports.length)
    (hguard : pf.comments.any
      (disqualifying pf.tokenFile (importsStartLine pf) (importsEndLine pf)) = false) :
    ∃ st, scan pf = some st ∧
      squashImports (.ok pf) = (if st.changed then .rewrite st else .untouched) ∧
      (∀ L, L ∈ mergedLines st.trace ↔
        (importsStartLine pf < L ∧ L < importsEndLine pf ∧ blankLine (Split pf.data) L = true)) ∧
      (∀ L, L ∈ (squashImports (.ok pf)).mergeCalls ↔
        (importsStartLine pf < L ∧ L < importsEndLine pf ∧ blankLine (Split pf.data) L = true)) ∧
      (∀ p, pf.tokenFile.Line p ≤ importsStartLine pf →
        st.tokenFile.Line p = pf.tokenFile.Line p) ∧
      (∀ p, importsEndLine pf ≤ pf.tokenFile.Line p →
        st.tokenFile.Line p +
          (interiorBlanks (Split pf.data) (importsStartLine pf) (importsEndLine pf)).length =
            pf.tokenFile.Line p) := by
  obtain ⟨st, hrun, _, _, hline, hch, hsteps, hall⟩ := scan_spec pf hinf hwf.sorted hwf.length_le
  have hmerged : ∀ L, L ∈ mergedLines st.trace ↔
      (importsStartLine pf < L ∧ L < importsEndLine pf ∧ blankLine (Split pf.data) L = true) := by
    intro L
    rw [mem_mergedLines]
    constructor
    · rintro ⟨step, hstep, hm, rfl⟩
      obtain ⟨h1, h2, h3, _⟩ := hsteps step hstep
      exact ⟨h1, by omega, by rw [← h3]; exact hm⟩
    · rintro ⟨h1, h2, h3⟩
      obtain ⟨step, hstep, rfl⟩ := hall L h1 h2
      exact ⟨step, hstep, by rw [(hsteps step hstep).2.2.1]; exact h3, rfl⟩
  have hres : squashImports (.ok pf) = (if st.changed then .rewrite st else .untouched) := by
    have hlen' : ¬ pf.imports.length ≤ 1 := by omega
    cases hc : st.changed <;> simp [squashImports, hlen', hguard, hrun, hc]
  refine ⟨st, hrun, hres, hmerged, ?_, ?_, ?_⟩
  · intro L
    rw [← hmerged L, hres]
    cases hc : st.changed
    · simp only [Result.mergeCalls, Bool.false_eq_true, if_false, List.not_mem_nil, false_iff]
      intro hL
      obtain ⟨h1, h2, h3⟩ := (hmerged L).1 hL
      have : st.changed = true := by
        rw [hch, List.any_eq_true]
        exact ⟨L, List.mem_range.2 h2, by simp [h1, h3]⟩
      rw [hc] at this; cases this
    · simp [Result.mergeCalls]
  · intro p hp
    have := hline p
    rw [cntBelow_eq_zero_of_le _ _ _ _ (by omega)] at this
    omega
  · intro p hp
    have := hline p
    rw [cntBelow_pred _ _ _ _ hp] at this
    exact this

theorem scan_frame_witness :
    WellFormed fourImports ∧ fourImports.tokenFile.infos = [] ∧
    1 < fourImports.imports.length ∧
    fourImports.comments.any (disqualifying fourImports.tokenFile
      (importsStartLine fourImports) (importsEndLine fourImports)) = false ∧
    ∃ st, scan fourImports = some st ∧
      squashImports (.ok fourImports) = (if st.changed then .rewrite st else .untouched) ∧
      (∀ L, L ∈ mergedLines st.trace ↔
        (importsStartLine fourImports < L ∧ L < importsEndLine fourImports ∧
          blankLine (Split fourImports.data) L = true)) ∧
      (∀ L, L ∈ (squashImports (.ok fourImports)).mergeCalls ↔
        (importsStartLine fourImports < L ∧ L < importsEndLine fourImports ∧
          blankLine (Split fourImports.data) L = true)) ∧
      (∀ p, fourImports.tokenFile.Line p ≤ importsStartLine fourImports →
        st.tokenFile.Line p = fourImports.tokenFile.Line p) ∧
      (∀ p, importsEndLine fourImports ≤ fourImports.tokenFile.Line p →
        st.tokenFile.Line p +
          (interiorBlanks (Split fourImports.data) (importsStartLine fourImports)
            (importsEndLine fourImports)).length = fourImports.tokenFile.Line p) :=
  ⟨fourImports_wellFormed, rfl, by decide, by decide,
    scan_frame fourImports fourImports_wellFormed rfl (by decide) (by decide)⟩

/-- C9 as stated fails on a file that the comment guard stops: `lineComment`
has no `//line` directive and its line 5 is a blank line between the two import
entries, but `squashImports` returns before the scan and calls `MergeLine` on no
line. -/
theorem merge_calls_need_the_guard :
    WellFormed lineComment ∧ lineComment.tokenFile.infos = [] ∧
    ¬ (∀ L, L ∈ (squashImports (.ok lineComment)).mergeCalls ↔
      (importsStartLine lineComment < L ∧ L < importsEndLine lineComment ∧
        blankLine (Split lineComment.data) L = true)) := by
  refine ⟨lineComment_wellFormed, rfl, fun h => ?_⟩
  have h5 := (h 5).2 ⟨by decide, by decide, by decide⟩
  revert h5
  decide

/-- C10. When the table has `N` lines with
`1 <= importsStartLine <= importsEndLine <= N` and the text splits into at least
`N` lines, the scan runs to its end without a panic: every index `line - 1` it
reads is inside `lines`, and every `MergeLine(line)` is called with
`1 <= line <` the number of lines the table has at that moment, a table that
every call made so far has shortened by one line. -/
theorem scan_never_out_of_range (pf : ParsedFile)
    (hS : 1 ≤ importsStartLine pf) (hSE : importsStartLine pf ≤ importsEndLine pf)
    (hN : importsEndLine pf ≤ pf.tokenFile.lines.length)
    (hT : pf.tokenFile.lines.length ≤ (Split pf.data).length) :
    ∃ st, scan pf = some st ∧
      (∀ step ∈ st.trace, 1 ≤ step.line ∧ step.line - 1 < (Split pf.data).length) ∧
      (∀ step ∈ st.trace, step.merged = true → 1 ≤ step.line ∧ step.line < step.table.length) ∧
      st.tokenFile.lines.length + (mergedLines st.trace).length = pf.tokenFile.lines.length := by
  obtain ⟨st, steps, hrun, htr, hsteps, hcount⟩ :=
    scanLoop_safe (Split pf.data) (importsStartLine pf) (importsEndLine pf - 1)
      { tokenFile := pf.tokenFile, changed := false, trace := [] }
      (by right; show importsEndLine pf - 1 < pf.tokenFile.lines.length; omega) (by omega)
  have htr' : st.trace = steps := by simpa using htr
  refine ⟨st, hrun, ?_, ?_, ?_⟩
  · intro step hstep
    rw [htr'] at hstep
    have := hsteps step hstep
    exact ⟨this.1, this.2.1⟩
  · intro step hstep _
    rw [htr'] at hstep
    have := hsteps step hstep
    exact ⟨this.1, this.2.2⟩
  · rw [htr']; exact hcount

theorem scan_never_out_of_range_witness :
    1 ≤ importsStartLine fourImports ∧
    importsStartLine fourImports ≤ importsEndLine fourImports ∧
    importsEndLine fourImports ≤ fourImports.tokenFile.lines.length ∧
    fourImports.tokenFile.lines.length ≤ (Split fourImports.data).length ∧
    ∃ st, scan fourImports = some st ∧
      (∀ step ∈ st.trace, 1 ≤ step.line ∧ step.line - 1 < (Split fourImports.data).length) ∧
      (∀ step ∈ st.trace, step.merged = true →
        1 ≤ step.line ∧ step.line < step.table.length) ∧
      st.tokenFile.lines.length + (mergedLines st.trace).length =
        fourImports.tokenFile.lines.length :=
  ⟨by decide, by decide, by decide, by decide,
    scan_never_out_of_range fourImports (by decide) (by decide) (by decide) (by decide)⟩

end GoSquashImports
